import Mathlib

/-!
# Strange attractors: the RK4 stepper, the attractor models and the trace drivers

A shallow embedding of `rk4.h`, `duffing.c`, `lorenz.c`, `rossler.c` and
`peterdejong.c`.

* `double` is an arbitrary field `K` (ordered where the code compares), so the
  same definitions run on `ℚ` and are reasoned about on `ℝ`.
* A C array is a `List K`.  Inside `rk4`/`rk4v` and the right-hand sides, whose
  contract is that every array has `n` entries, `a[i]` is `rd a i` and
  `a[i] = v` is `wr a i v`.  In the drivers' bounding-box code, where the loop
  bound is written independently of the array length, reads and writes are
  checked (`a[i]?`, `wrChk`) and an out-of-range access makes the run `none`.
* `sin` and `cos` from `<math.h>` are parameters of the models that use them.
* An output parameter (`y_next`, `dy`, `next`) is the returned list; a
  right-hand side passed to `rk4`/`rk4v` is a function of `t` and `y` alone.
* A driver's `main` is embedded up to the end of its trace loop, with the
  iteration count `kIterations` as a parameter.
-/

namespace StrangeAttractors

/-! ## Arrays and loops -/

section Arrays

variable {K : Type}

/-- `a[i]` on an array that the caller guarantees to be long enough. -/
def rd [Zero K] (a : List K) (i : Nat) : K := a.getD i 0

/-- `a[i] = v` on an array that the caller guarantees to be long enough. -/
def wr (a : List K) (i : Nat) (v : K) : List K := a.set i v

/-- `double a[n];` a local array of `n` entries.  C leaves the entries
indeterminate; here they start at `0`, and the loops below write every entry
before reading it. -/
def fresh [Zero K] (n : Nat) : List K := List.replicate n 0

/-- `for (int i = 0; i < n; ++i) body`, threading the mutated variables. -/
def forLoop {σ : Type} (body : Nat → σ → σ) : Nat → σ → σ
  | 0, s => s
  | n + 1, s => body n (forLoop body n s)

/-- Checked `a[i] = v`: fails when `i` is out of range. -/
def wrChk (a : List K) (i : Nat) (v : K) : Option (List K) :=
  if i < a.length then some (a.set i v) else none

/-- `for (int j = 0; j < n; ++j) body` where the body can fail. -/
def forLoopChk {σ : Type} (body : Nat → σ → Option σ) : Nat → σ → Option σ
  | 0, s => some s
  | n + 1, s => (forLoopChk body n s).bind (body n)

end Arrays

/-! ## `rk4.h` -/

section Stepper

variable {K : Type} [Field K]

/-- `rk4` of `rk4.h`: one step, the right-hand side given as an array `f` of
`n` scalar functions.  The function returns the output parameter `y_next`. -/
def rk4 (n : Nat) (f : List (K → List K → K)) (t h : K) (y : List K) : List K :=
  let fAt : Nat → K → List K → K := fun i => f.getD i (fun _ _ => 0)
  let k : List K := fresh n
  let y_next : List K := fresh n
  -- k1 = h * f(t, y)
  let (k, y_next) := forLoop (fun i (s : List K × List K) =>
      let k := wr s.1 i (h * fAt i t y)
      (k, wr s.2 i (rd k i))) n (k, y_next)
  -- k2 = h * f(t + h/2, y + k1/2)
  let temp : List K := fresh n
  let temp := forLoop (fun i temp => wr temp i (rd y i + rd k i / 2)) n temp
  let (k, y_next) := forLoop (fun i (s : List K × List K) =>
      let k := wr s.1 i (h * fAt i (t + h / 2) temp)
      (k, wr s.2 i (rd s.2 i + rd k i * 2))) n (k, y_next)
  -- k3 = h * f(t + h/2, y + k2/2)
  let temp := forLoop (fun i temp => wr temp i (rd y i + rd k i / 2)) n temp
  let (k, y_next) := forLoop (fun i (s : List K × List K) =>
      let k := wr s.1 i (h * fAt i (t + h / 2) temp)
      (k, wr s.2 i (rd s.2 i + rd k i * 2))) n (k, y_next)
  -- k4 = h * f(t + h, y + k3)
  let temp := forLoop (fun i temp => wr temp i (rd y i + rd k i)) n temp
  let (_, y_next) := forLoop (fun i (s : List K × List K) =>
      let k := wr s.1 i (h * fAt i (t + h) temp)
      (k, wr s.2 i (rd s.2 i + rd k i))) n (k, y_next)
  -- y_next = y + (k1 + 2(k2 + k3) + k4) / 6
  forLoop (fun i y_next => wr y_next i (rd y i + rd y_next i / 6)) n y_next

/-- `rk4v` of `rk4.h`: one step, the right-hand side given as one
vector-valued function; the call `f(t, y, k)` fills `k` with `f t y`.  The
function returns the output parameter `y_next`. -/
def rk4v (n : Nat) (f : K → List K → List K) (t h : K) (y : List K) : List K :=
  -- k1 = h * f(t, y)
  let k : List K := f t y
  let y_next : List K := fresh n
  let (k, y_next) := forLoop (fun i (s : List K × List K) =>
      let k := wr s.1 i (rd s.1 i * h)
      (k, wr s.2 i (rd k i))) n (k, y_next)
  -- k2 = h * (t + h/2, y + k1/2)
  let temp : List K := fresh n
  let temp := forLoop (fun i temp => wr temp i (rd y i + rd k i / 2)) n temp
  let k := f (t + h / 2) temp
  let (k, y_next) := forLoop (fun i (s : List K × List K) =>
      let k := wr s.1 i (rd s.1 i * h)
      (k, wr s.2 i (rd s.2 i + rd k i * 2))) n (k, y_next)
  -- k3 = h * (t + h/2, y + k2/2)
  let temp := forLoop (fun i temp => wr temp i (rd y i + rd k i / 2)) n temp
  let k := f (t + h / 2) temp
  let (k, y_next) := forLoop (fun i (s : List K × List K) =>
      let k := wr s.1 i (rd s.1 i * h)
      (k, wr s.2 i (rd s.2 i + rd k i * 2))) n (k, y_next)
  -- k4 = h * (t + h, y + k3)
  let temp := forLoop (fun i temp => wr temp i (rd y i + rd k i)) n temp
  let k := f (t + h) temp
  let (_, y_next) := forLoop (fun i (s : List K × List K) =>
      let k := wr s.1 i (rd s.1 i * h)
      (k, wr s.2 i (rd s.2 i + rd k i))) n (k, y_next)
  -- y_next = y + (k1 + 2(k2 + k3) + k4) / 6
  forLoop (fun i y_next => wr y_next i (rd y i + rd y_next i / 6)) n y_next

/-! ### The RK4 formula in the words of the specification -/

/-- `h * v` on vectors. -/
def vscale (h : K) (v : List K) : List K := v.map (fun d => h * d)

/-- `y + k` on vectors. -/
def vadd (y k : List K) : List K := List.zipWith (fun a b => a + b) y k

/-- `k / 2` on vectors. -/
def vhalf (k : List K) : List K := k.map (fun d => d / 2)

/-- `k1 = h·rhs(t, y)`. -/
def specK1 (f : K → List K → List K) (t h : K) (y : List K) : List K :=
  vscale h (f t y)

/-- `k2 = h·rhs(t + h/2, y + k1/2)`. -/
def specK2 (f : K → List K → List K) (t h : K) (y : List K) : List K :=
  vscale h (f (t + h / 2) (vadd y (vhalf (specK1 f t h y))))

/-- `k3 = h·rhs(t + h/2, y + k2/2)`. -/
def specK3 (f : K → List K → List K) (t h : K) (y : List K) : List K :=
  vscale h (f (t + h / 2) (vadd y (vhalf (specK2 f t h y))))

/-- `k4 = h·rhs(t + h, y + k3)`. -/
def specK4 (f : K → List K → List K) (t h : K) (y : List K) : List K :=
  vscale h (f (t + h) (vadd y (specK3 f t h y)))

/-- The vector function `F(t, y)[i] = f_i(t, y)` made of an array of scalar
functions. -/
def vectorOf (f : List (K → List K → K)) : K → List K → List K :=
  fun t y => f.map (fun fi => fi t y)

end Stepper

/-! ## The attractor models -/

namespace Duffing

variable {K : Type} [Field K]

/-- `const double a = 0.25;` -/
def a : K := 0.25
/-- `const double b = 0.3;` -/
def b : K := 0.3
/-- `const double w = 1.0;` -/
def w : K := 1.0
/-- `const double h = 0.03;` -/
def h : K := 0.03

/-- `f` of `duffing.c`; the returned list is the output parameter `dy`. -/
def f (cos : K → K) (t : K) (y : List K) : List K :=
  [rd y 1,
   rd y 0 * (1.0 - rd y 0 * rd y 0) - a * rd y 1 + b * cos (w * t)]

/-- The second equation as the header comment of `duffing.c` documents it:
`dy/dt = x - x^3 - a*y + b*cos(w*t)`. -/
def headerDy1 (cos : K → K) (t x y : K) : K :=
  x - x ^ 3 - a * y + b * cos (w * t)

end Duffing

namespace Lorenz

variable {K : Type} [Field K]

/-- `const double a = 10` -/
def a : K := 10
/-- `b = 28` -/
def b : K := 28
/-- `c = 8./3.;` -/
def c : K := 8 / 3

/-- `f` of `lorenz.c`; `t` is unused (`(void)t;`). -/
def f (_t : K) (y : List K) : List K :=
  [a * (rd y 1 - rd y 0),
   rd y 0 * (b - rd y 2) - rd y 1,
   rd y 0 * rd y 1 - c * rd y 2]

end Lorenz

namespace Rossler

variable {K : Type} [Field K]

/-- `const double a = 0.2` -/
def a : K := 0.2
/-- `b = 0.2` -/
def b : K := 0.2
/-- `c = 5.7;` -/
def c : K := 5.7

/-- `f` of `rossler.c`; `t` is unused (`(void)t;`). -/
def f (_t : K) (y : List K) : List K :=
  [-(rd y 1 + rd y 2),
   rd y 0 + a * rd y 1,
   b + rd y 2 * (rd y 0 - c)]

end Rossler

namespace PeterDeJong

variable {K : Type} [Field K]

/-- `const double a = -2` -/
def a : K := -2
/-- `b = -2` -/
def b : K := -2
/-- `c = -1.2` -/
def c : K := -1.2
/-- `d = 2;` -/
def d : K := 2

/-- `f` of `peterdejong.c`, a map and not a derivative; the returned list is
the output parameter `next`. -/
def f (sin cos : K → K) (y : List K) : List K :=
  [sin (a * rd y 1) - cos (b * rd y 0),
   sin (c * rd y 0) - cos (d * rd y 1)]

end PeterDeJong

/-! ## The trace drivers (`main` of the four programs) -/

section Driver

variable {K : Type} [LinearOrderedField K]

/-- The path-building calls a driver makes on the Cairo context. -/
inductive Draw (K : Type) where
  | move_to (x y : K) : Draw K
  | line_to (x y : K) : Draw K
  deriving DecidableEq

/-- The variables of a driver's trace loop: the position `y`, the bounding
box `min`, `max`, and the drawing calls made so far. -/
structure Trace (K : Type) where
  y : List K
  min : List K
  max : List K
  path : List (Draw K)

/-- Bounding box initialisation,
`double min[N], max[N]; for (int j = 0; j < B; ++j) min[j] = max[j] = y[j];`
(`B` is written `N` in three drivers and `3` in `lorenz.c`). -/
def initBounds (N B : Nat) (y : List K) : Option (List K × List K) :=
  forLoopChk (fun j (s : List K × List K) =>
    (y[j]?).bind fun v =>
    (wrChk s.2 j v).bind fun mx =>
    (wrChk s.1 j v).bind fun mn =>
    some (mn, mx)) B (fresh N, fresh N)

/-- Bounding box update,
`for (int j = 0; j < B; ++j) { if (min[j] > y_next[j]) min[j] = y_next[j];
else if (max[j] < y_next[j]) max[j] = y_next[j]; }`
(`B` is written `N` in three drivers and `3` in `peterdejong.c`). -/
def updateBounds (B : Nat) (y_next : List K) (mn mx : List K) : Option (List K × List K) :=
  forLoopChk (fun j (s : List K × List K) =>
    (s.1[j]?).bind fun m =>
    (y_next[j]?).bind fun v =>
    if m > v then
      (wrChk s.1 j v).bind fun mn => some (mn, s.2)
    else
      (s.2[j]?).bind fun M =>
      if M < v then
        (wrChk s.2 j v).bind fun mx => some (s.1, mx)
      else some s) B (mn, mx)

/-- Update position, `for (int j = 0; j < N; ++j) y[j] = y_next[j];`. -/
def copyState (N : Nat) (y_next y : List K) : Option (List K) :=
  forLoopChk (fun j (y : List K) => (y_next[j]?).bind fun v => wrChk y j v) N y

/-- The drawing calls of the Duffing, Lorenz and Rössler loops:
`cairo_move_to(cr, y[0], y[1]); cairo_line_to(cr, y_next[0], y_next[1]);`. -/
def drawSegment (y y_next : List K) : Option (List (Draw K)) :=
  (y[0]?).bind fun x0 => (y[1]?).bind fun x1 =>
  (y_next[0]?).bind fun n0 => (y_next[1]?).bind fun n1 =>
  some [Draw.move_to x0 x1, Draw.line_to n0 n1]

/-- The drawing calls of the Peter de Jong loop:
`cairo_move_to(cr, y_next[0], y_next[1]);
cairo_line_to(cr, y_next[0]+.001, y_next[1]+.001);`. -/
def drawStamp (_y y_next : List K) : Option (List (Draw K)) :=
  (y_next[0]?).bind fun n0 => (y_next[1]?).bind fun n1 =>
  some [Draw.move_to n0 n1, Draw.line_to (n0 + 0.001) (n1 + 0.001)]

/-- One iteration `i` of a trace loop: compute `y_next`, update the bounding
box over `B` components, draw, update the position.  (Colour selection and
`cairo_stroke` do not touch these variables and are left out.) -/
def traceStep (N B : Nat) (next : Nat → List K → List K)
    (draw : List K → List K → Option (List (Draw K))) (i : Nat) (s : Trace K) :
    Option (Trace K) :=
  let y_next := next i s.y
  (updateBounds B y_next s.min s.max).bind fun box =>
  (draw s.y y_next).bind fun calls =>
  (copyState N y_next s.y).bind fun y =>
  some { y := y, min := box.1, max := box.2, path := s.path ++ calls }

/-- A driver's `main` up to the end of the trace loop: the initial condition
`y0`, the bounding box initialisation over `Binit` components, then
`for (int i = 0; i < kIterations; ++i)` the iteration `traceStep`. -/
def traceLoop (N Binit B : Nat) (y0 : List K) (next : Nat → List K → List K)
    (draw : List K → List K → Option (List (Draw K))) (kIterations : Nat) :
    Option (Trace K) :=
  (initBounds N Binit y0).bind fun box =>
  forLoopChk (traceStep N B next draw) kIterations
    { y := y0, min := box.1, max := box.2, path := [] }

/-- The bounding-box code alone, fed a sequence of next states: the
initialisation from `y0`, then one `updateBounds` per next state. -/
def boundsAfter (N B : Nat) (y0 : List K) (nexts : List (List K)) :
    Option (List K × List K) :=
  nexts.foldl (fun acc y_next => acc.bind fun box => updateBounds B y_next box.1 box.2)
    (initBounds N B y0)

/-- The position after `k` iterations of `y_next = next i y; y = y_next`. -/
def stateAt (next : Nat → List K → List K) (y0 : List K) : Nat → List K
  | 0 => y0
  | k + 1 => next k (stateAt next y0 k)

/-- The next states `y_next` of iterations `1..k`, in order. -/
def nextStates (next : Nat → List K → List K) (y0 : List K) (k : Nat) : List (List K) :=
  (List.range k).map fun i => stateAt next y0 (i + 1)

/-- Reference reduction: the minimum of component `j` over `y0` and `states`. -/
def refMin (j : Nat) (y0 : List K) (states : List (List K)) : K :=
  states.foldl (fun m s => min m (rd s j)) (rd y0 j)

/-- Reference reduction: the maximum of component `j` over `y0` and `states`. -/
def refMax (j : Nat) (y0 : List K) (states : List (List K)) : K :=
  states.foldl (fun m s => max m (rd s j)) (rd y0 j)

/-- The drawing calls of `k` iterations of a segment-drawing loop, from the
positions alone. -/
def segmentPath (next : Nat → List K → List K) (y0 : List K) (k : Nat) : List (Draw K) :=
  (List.range k).flatMap fun i =>
    [Draw.move_to (rd (stateAt next y0 i) 0) (rd (stateAt next y0 i) 1),
     Draw.line_to (rd (stateAt next y0 (i + 1)) 0) (rd (stateAt next y0 (i + 1)) 1)]

/-- The drawing calls of `k` iterations of a stamp-drawing loop, from the
positions alone. -/
def stampPath (next : Nat → List K → List K) (y0 : List K) (k : Nat) : List (Draw K) :=
  (List.range k).flatMap fun i =>
    [Draw.move_to (rd (stateAt next y0 (i + 1)) 0) (rd (stateAt next y0 (i + 1)) 1),
     Draw.line_to (rd (stateAt next y0 (i + 1)) 0 + 0.001)
       (rd (stateAt next y0 (i + 1)) 1 + 0.001)]

end Driver

namespace Duffing

variable {K : Type} [LinearOrderedField K]

/-- `#define N 2` -/
def N : Nat := 2

/-- Initial condition `double y[N] = { 0.1, 0.1 };`. -/
def y0 : List K := [0.1, 0.1]

/-- `const double t = i * h; rk4v(N, f, t, h, y, y_next);` -/
def next (cos : K → K) (i : Nat) (y : List K) : List K :=
  rk4v N (f cos) ((i : K) * h) h y

/-- `main` of `duffing.c` up to the end of the trace loop. -/
def main (cos : K → K) (kIterations : Nat) : Option (Trace K) :=
  traceLoop N N N y0 (next cos) drawSegment kIterations

end Duffing

namespace Lorenz

variable {K : Type} [LinearOrderedField K]

/-- `#define N 3` -/
def N : Nat := 3

/-- `const double h = 0.02;` -/
def h : K := 0.02

/-- Initial condition `double y[N] = { 0.1, 0.1, 0.1 };`. -/
def y0 : List K := [0.1, 0.1, 0.1]

/-- `rk4v(N, f, i * h, h, y, y_next);` -/
def next (i : Nat) (y : List K) : List K :=
  rk4v N f ((i : K) * h) h y

/-- `main` of `lorenz.c` up to the end of the trace loop; the bounding box
initialisation is written `j < 3`. -/
def main (kIterations : Nat) : Option (Trace K) :=
  traceLoop N 3 N y0 next drawSegment kIterations

end Lorenz

namespace Rossler

variable {K : Type} [LinearOrderedField K]

/-- `#define N 3` -/
def N : Nat := 3

/-- `const double h = 0.01;` -/
def h : K := 0.01

/-- Initial condition `double y[N] = { 0.1, 0.1, 0.1 };`. -/
def y0 : List K := [0.1, 0.1, 0.1]

/-- `rk4v(N, f, i * h, h, y, y_next);` -/
def next (i : Nat) (y : List K) : List K :=
  rk4v N f ((i : K) * h) h y

/-- `main` of `rossler.c` up to the end of the trace loop. -/
def main (kIterations : Nat) : Option (Trace K) :=
  traceLoop N N N y0 next drawSegment kIterations

end Rossler

namespace PeterDeJong

variable {K : Type} [LinearOrderedField K]

/-- `#define N 2` -/
def N : Nat := 2

/-- Initial condition `double y[N] = { 0.5, 0.5 };`. -/
def y0 : List K := [0.5, 0.5]

/-- `f(y, y_next);` -/
def next (sin cos : K → K) (_i : Nat) (y : List K) : List K :=
  f sin cos y

/-- `main` of `peterdejong.c` up to the end of the trace loop; the bounding
box update is written `j < 3`. -/
def main (sin cos : K → K) (kIterations : Nat) : Option (Trace K) :=
  traceLoop N N 3 y0 (next sin cos) drawStamp kIterations

end PeterDeJong

/-! ## Repeated steps on the exactness scenario of the specification -/

section Growth

variable {K : Type} [Field K]

/-- The right-hand side `rhs(t, y) = y` of the exactness scenario (scalar
exponential growth, `n = 1`), as the vector function `rk4v` takes. -/
def growth : K → List K → List K := fun _ y => [rd y 0]

/-- The same right-hand side as the array of one scalar function `rk4` takes. -/
def growthFns : List (K → List K → K) := [fun _ y => rd y 0]

/-- The state after `k` successive `rk4v` steps of size `h` from `y0`, step `i`
taken at time `i*h`. -/
def rk4vSteps (n : Nat) (f : K → List K → List K) (h : K) (y0 : List K) (k : Nat) : List K :=
  stateAt (fun i y => rk4v n f ((i : K) * h) h y) y0 k

/-- The state after `k` successive `rk4` steps of size `h` from `y0`, step `i`
taken at time `i*h`. -/
def rk4Steps (n : Nat) (f : List (K → List K → K)) (h : K) (y0 : List K) (k : Nat) : List K :=
  stateAt (fun i y => rk4 n f ((i : K) * h) h y) y0 k

/-- The scalar linear right-hand side `rhs(t, y) = lambda*y` (`n = 1`), as the
vector function `rk4v` takes. -/
def linear (lam : K) : K → List K → List K := fun _ y => [lam * rd y 0]

/-- The same right-hand side as the array of one scalar function `rk4` takes. -/
def linearFns (lam : K) : List (K → List K → K) := [fun _ y => lam * rd y 0]

end Growth

/-! ## The coordinate mapper -/

section Mapper

variable {K : Type} [Field K]

/-- Cairo's current transformation matrix, restricted to the axis-aligned
transforms the drivers set up: user `(x, y)` goes to device
`(xx * x + x0, yy * y + y0)`. -/
structure Ctm (K : Type) where
  xx : K
  yy : K
  x0 : K
  y0 : K

/-- The transformation of a new Cairo context. -/
def Ctm.identity : Ctm K := { xx := 1, yy := 1, x0 := 0, y0 := 0 }

/-- Cairo's `cairo_scale`: the user-space axes are scaled by `sx`, `sy`, the
scaling taking place before the transformation already in place. -/
def cairo_scale (m : Ctm K) (sx sy : K) : Ctm K :=
  { xx := m.xx * sx, yy := m.yy * sy, x0 := m.x0, y0 := m.y0 }

/-- Cairo's `cairo_translate`: the user-space origin is moved by `(tx, ty)`,
an offset in the user space in place before the call. -/
def cairo_translate (m : Ctm K) (tx ty : K) : Ctm K :=
  { xx := m.xx, yy := m.yy, x0 := m.xx * tx + m.x0, y0 := m.yy * ty + m.y0 }

/-- Where Cairo puts the user-space point `(x, y)` on the device. -/
def user_to_device (m : Ctm K) (x y : K) : K × K :=
  (m.xx * x + m.x0, m.yy * y + m.y0)

/-- The two calls every driver makes before tracing:
`cairo_scale(cr, kWidth / (kXRight - kXLeft), kHeight / (kYBottom - kYTop));
cairo_translate(cr, tx, ty);`. -/
def viewportCtm (kWidth kHeight kXLeft kXRight kYBottom kYTop tx ty : K) : Ctm K :=
  cairo_translate
    (cairo_scale Ctm.identity (kWidth / (kXRight - kXLeft)) (kHeight / (kYBottom - kYTop)))
    tx ty

end Mapper

namespace Duffing

variable {K : Type} [Field K]

/-- `const int kWidth = 1350` -/
def kWidth : K := 1350
/-- `kHeight = 900;` -/
def kHeight : K := 900
/-- `const double kXLeft = -1.5` -/
def kXLeft : K := -1.5
/-- `kXRight = 1.5;` -/
def kXRight : K := 1.5
/-- `const double kYBottom = -1.0` -/
def kYBottom : K := -1.0
/-- `kYTop = 1.0;` -/
def kYTop : K := 1.0

/-- The transform of `duffing.c`: `cairo_translate(cr, kXRight, kYBottom);`. -/
def ctm : Ctm K :=
  viewportCtm kWidth kHeight kXLeft kXRight kYBottom kYTop kXRight kYBottom

end Duffing

namespace Lorenz

variable {K : Type} [Field K]

/-- `const int kWidth = 1200` -/
def kWidth : K := 1200
/-- `kHeight = 1200;` -/
def kHeight : K := 1200
/-- `const double kXLeft = -20` -/
def kXLeft : K := -20
/-- `kXRight = 20;` -/
def kXRight : K := 20
/-- `const double kYBottom = -30` -/
def kYBottom : K := -30
/-- `kYTop = 30;` -/
def kYTop : K := 30

/-- The transform of `lorenz.c`: `cairo_translate(cr, kXRight, kYBottom);`. -/
def ctm : Ctm K :=
  viewportCtm kWidth kHeight kXLeft kXRight kYBottom kYTop kXRight kYBottom

end Lorenz

namespace Rossler

variable {K : Type} [Field K]

/-- `const int kWidth = 1200` -/
def kWidth : K := 1200
/-- `kHeight = 1200;` -/
def kHeight : K := 1200
/-- `const double kXLeft = -10` -/
def kXLeft : K := -10
/-- `kXRight = 12;` -/
def kXRight : K := 12
/-- `const double kYBottom = -12` -/
def kYBottom : K := -12
/-- `kYTop = 10;` -/
def kYTop : K := 10
/-- The first argument `10.0` of `cairo_translate`. -/
def kTranslateX : K := 10.0
/-- The second argument `-10.0` of `cairo_translate`. -/
def kTranslateY : K := -10.0

/-- The transform of `rossler.c`: `cairo_translate(cr, 10.0, -10.0);`. -/
def ctm : Ctm K :=
  viewportCtm kWidth kHeight kXLeft kXRight kYBottom kYTop kTranslateX kTranslateY

end Rossler

namespace PeterDeJong

variable {K : Type} [Field K]

/-- `const int kWidth = 900` -/
def kWidth : K := 900
/-- `kHeight = 900;` -/
def kHeight : K := 900
/-- `const double kXLeft = -2.1` -/
def kXLeft : K := -2.1
/-- `kXRight = 2.1;` -/
def kXRight : K := 2.1
/-- `const double kYBottom = -2.1` -/
def kYBottom : K := -2.1
/-- `kYTop = 2.1;` -/
def kYTop : K := 2.1

/-- The transform of `peterdejong.c`: `cairo_translate(cr, kXRight, kYBottom);`. -/
def ctm : Ctm K :=
  viewportCtm kWidth kHeight kXLeft kXRight kYBottom kYTop kXRight kYBottom

end PeterDeJong

/-! ## Loop lemmas -/

section LoopLemmas

variable {K : Type}

theorem rd_eq_getElem [Zero K] (a : List K) (i : Nat) (h : i < a.length) :
    rd a i = a.get ⟨i, h⟩ := by
  simp [rd, List.getD_eq_getElem?_getD, List.getElem?_eq_getElem h]

theorem rd_wr [Zero K] (a : List K) (i j : Nat) (v : K) (h : i < a.length) :
    rd (wr a i v) j = if j = i then v else rd a j := by
  unfold rd wr
  by_cases hji : j = i
  · subst hji
    simp [List.getD_eq_getElem?_getD, h]
  · have hne : i ≠ j := fun e => hji e.symm
    simp [List.getD_eq_getElem?_getD, hji, List.getElem?_set_ne hne]

theorem length_wr (a : List K) (i : Nat) (v : K) : (wr a i v).length = a.length := by
  simp [wr]

theorem length_fresh [Zero K] (n : Nat) : (fresh n : List K).length = n := by
  simp [fresh]

/-- Two arrays of the same length with the same entries are the same array. -/
theorem ext_rd [Zero K] {a b : List K} (hl : a.length = b.length)
    (h : ∀ j, j < a.length → rd a j = rd b j) : a = b := by
  apply List.ext_getElem hl
  intro j h1 h2
  have := h j h1
  rw [rd_eq_getElem a j h1, rd_eq_getElem b j h2] at this
  simpa using this

/-- A loop that rewrites entry `i` of one array from its old value. -/
theorem forLoop_single [Zero K] (g : Nat → K → K) (a : List K) (m : Nat)
    (hm : m ≤ a.length) :
    (forLoop (fun i a => wr a i (g i (rd a i))) m a).length = a.length ∧
    ∀ j, rd (forLoop (fun i a => wr a i (g i (rd a i))) m a) j
      = if j < m then g j (rd a j) else rd a j := by
  induction m with
  | zero => simp [forLoop]
  | succ m ih =>
    obtain ⟨hl, hr⟩ := ih (Nat.le_of_succ_le hm)
    have hlt : m < (forLoop (fun i a => wr a i (g i (rd a i))) m a).length := by
      rw [hl]; exact hm
    refine ⟨by simp [forLoop, length_wr, hl], ?_⟩
    intro j
    simp only [forLoop]
    rw [rd_wr _ _ _ _ hlt, hr j, hr m]
    by_cases hjm : j = m
    · subst hjm; simp
    · by_cases hlt2 : j < m
      · simp [hjm, hlt2, Nat.lt_succ_of_lt hlt2]
      · have : ¬ j < m + 1 := by omega
        simp [hjm, hlt2, this]

/-- A loop that rewrites entry `i` of `k` from its old value and then entry `i`
of `y_next` from its old value and the new `k[i]`. -/
theorem forLoop_pair [Zero K] (p : Nat → K → K) (q : Nat → K → K → K)
    (k yn : List K) (m : Nat) (hk : m ≤ k.length) (hy : m ≤ yn.length) :
    (forLoop (fun i (s : List K × List K) =>
        (wr s.1 i (p i (rd s.1 i)),
         wr s.2 i (q i (rd s.2 i) (rd (wr s.1 i (p i (rd s.1 i))) i)))) m (k, yn)).1.length
      = k.length ∧
    (forLoop (fun i (s : List K × List K) =>
        (wr s.1 i (p i (rd s.1 i)),
         wr s.2 i (q i (rd s.2 i) (rd (wr s.1 i (p i (rd s.1 i))) i)))) m (k, yn)).2.length
      = yn.length ∧
    (∀ j, rd (forLoop (fun i (s : List K × List K) =>
        (wr s.1 i (p i (rd s.1 i)),
         wr s.2 i (q i (rd s.2 i) (rd (wr s.1 i (p i (rd s.1 i))) i)))) m (k, yn)).1 j
      = if j < m then p j (rd k j) else rd k j) ∧
    (∀ j, rd (forLoop (fun i (s : List K × List K) =>
        (wr s.1 i (p i (rd s.1 i)),
         wr s.2 i (q i (rd s.2 i) (rd (wr s.1 i (p i (rd s.1 i))) i)))) m (k, yn)).2 j
      = if j < m then q j (rd yn j) (p j (rd k j)) else rd yn j) := by
  induction m with
  | zero => simp [forLoop]
  | succ m ih =>
    obtain ⟨hl1, hl2, hr1, hr2⟩ := ih (Nat.le_of_succ_le hk) (Nat.le_of_succ_le hy)
    simp only [forLoop]
    generalize forLoop (fun i (s : List K × List K) =>
        (wr s.1 i (p i (rd s.1 i)),
         wr s.2 i (q i (rd s.2 i) (rd (wr s.1 i (p i (rd s.1 i))) i)))) m (k, yn) = r
      at hl1 hl2 hr1 hr2
    have hlt1 : m < r.1.length := by rw [hl1]; exact hk
    have hlt2 : m < r.2.length := by rw [hl2]; exact hy
    refine ⟨by simp [length_wr, hl1], by simp [length_wr, hl2], ?_, ?_⟩
    · intro j
      rw [rd_wr _ _ _ _ hlt1, hr1 j, hr1 m]
      by_cases hjm : j = m
      · subst hjm; simp
      · by_cases hlt : j < m
        · simp [hjm, hlt, Nat.lt_succ_of_lt hlt]
        · have : ¬ j < m + 1 := by omega
          simp [hjm, hlt, this]
    · intro j
      rw [rd_wr _ _ _ _ hlt2, rd_wr _ _ _ _ hlt1, hr2 j, hr2 m, hr1 m]
      by_cases hjm : j = m
      · subst hjm; simp
      · by_cases hlt : j < m
        · simp [hjm, hlt, Nat.lt_succ_of_lt hlt]
        · have : ¬ j < m + 1 := by omega
          simp [hjm, hlt, this]

theorem rd_map [Zero K] (g : K → K) (l : List K) (j : Nat) (h : j < l.length) :
    rd (l.map g) j = g (rd l j) := by
  simp [rd, List.getD_eq_getElem?_getD, List.getElem?_eq_getElem h]

theorem rd_zipWith [Zero K] (g : K → K → K) (a b : List K) (j : Nat)
    (ha : j < a.length) (hb : j < b.length) :
    rd (List.zipWith g a b) j = g (rd a j) (rd b j) := by
  simp [rd, List.getD_eq_getElem?_getD, List.getElem?_zipWith,
    List.getElem?_eq_getElem ha, List.getElem?_eq_getElem hb]

/-- The `temp[i] = y[i] + c(k[i])` loops. -/
theorem forLoop_temp [Zero K] (c : K → K → K) (y k temp : List K) (n : Nat)
    (hy : y.length = n) (hk : k.length = n) (ht : temp.length = n) :
    forLoop (fun i temp => wr temp i (c (rd y i) (rd k i))) n temp
      = List.zipWith c y k := by
  obtain ⟨hl, hr⟩ := forLoop_single (fun i _ => c (rd y i) (rd k i)) temp n (le_of_eq ht.symm)
  apply ext_rd
  · rw [hl, ht]; simp [hy, hk]
  · intro j hj
    rw [hl, ht] at hj
    rw [hr j, if_pos hj, rd_zipWith c y k j (by omega) (by omega)]

/-- The `k[i] *= h; y_next[i] = q(y_next[i], k[i])` loops of `rk4v`. -/
theorem forLoop_scale [Field K] (q : K → K → K) (h : K) (k yn : List K) (n : Nat)
    (hk : k.length = n) (hy : yn.length = n) :
    forLoop (fun i (s : List K × List K) =>
        (wr s.1 i (rd s.1 i * h),
         wr s.2 i (q (rd s.2 i) (rd (wr s.1 i (rd s.1 i * h)) i)))) n (k, yn)
      = (k.map (fun d => h * d), List.zipWith (fun a d => q a (h * d)) yn k) := by
  obtain ⟨hl1, hl2, hr1, hr2⟩ :=
    forLoop_pair (fun _ x => x * h) (fun _ a b => q a b) k yn n
      (le_of_eq hk.symm) (le_of_eq hy.symm)
  refine Prod.ext ?_ ?_
  · apply ext_rd
    · simpa using hl1
    · intro j hj
      have hj2 : j < n := by rw [← hk, ← hl1]; exact hj
      rw [hr1 j, if_pos hj2, rd_map _ k j (by omega), mul_comm]
  · apply ext_rd
    · rw [hl2]; simp [hk, hy]
    · intro j hj
      have hj2 : j < n := by rw [← hy, ← hl2]; exact hj
      rw [hr2 j, if_pos hj2, rd_zipWith _ yn k j (by omega) (by omega), mul_comm]

theorem vadd_vhalf [Field K] (y k : List K) :
    vadd y (vhalf k) = List.zipWith (fun a b => a + b / 2) y k := by
  simp [vadd, vhalf, List.zipWith_map_right]

theorem length_vscale [Field K] (h : K) (v : List K) : (vscale h v).length = v.length := by
  simp [vscale]

theorem length_zipWith_same (g : K → K → K) (a b : List K) (n : Nat)
    (ha : a.length = n) (hb : b.length = n) : (List.zipWith g a b).length = n := by
  simp [ha, hb]

/-- The loops of `rk4v` computed in closed form: the accumulator `y_next` is
built from the four stages `k1..k4` of the specification. -/
theorem rk4v_closed [Field K] (n : Nat) (f : K → List K → List K) (t h : K) (y : List K)
    (hy : y.length = n) (hf : ∀ s z, z.length = n → (f s z).length = n) :
    rk4v n f t h y =
      List.zipWith (fun a s => a + s / 6) y
        (List.zipWith (fun a d => a + h * d)
          (List.zipWith (fun a d => a + h * d * 2)
            (List.zipWith (fun a d => a + h * d * 2)
              (List.zipWith (fun _ d => h * d) (fresh n : List K) (f t y))
              (f (t + h / 2) (vadd y (vhalf (specK1 f t h y)))))
            (f (t + h / 2) (vadd y (vhalf (specK2 f t h y)))))
          (f (t + h) (vadd y (specK3 f t h y)))) := by
  have hk1 : (specK1 f t h y).length = n := by
    rw [specK1, length_vscale]; exact hf t y hy
  have ht1 : (vadd y (vhalf (specK1 f t h y))).length = n := by
    rw [vadd_vhalf]; exact length_zipWith_same _ _ _ n hy hk1
  have hk2 : (specK2 f t h y).length = n := by
    rw [specK2, length_vscale]; exact hf _ _ ht1
  have ht2 : (vadd y (vhalf (specK2 f t h y))).length = n := by
    rw [vadd_vhalf]; exact length_zipWith_same _ _ _ n hy hk2
  have hk3 : (specK3 f t h y).length = n := by
    rw [specK3, length_vscale]; exact hf _ _ ht2
  have ht3 : (vadd y (specK3 f t h y)).length = n :=
    length_zipWith_same _ _ _ n hy hk3
  unfold rk4v
  simp only []
  -- k1
  have e1 := forLoop_scale (fun _ b => b) h (f t y) (fresh n) n (hf t y hy) (length_fresh n)
  simp only [] at e1
  rw [e1]
  simp only []
  have hy1 : (List.zipWith (fun _ d => h * d) (fresh n) (f t y)).length = n :=
    length_zipWith_same _ (fresh n) _ n (length_fresh n) (hf t y hy)
  -- temp = y + k1/2
  have t1 := forLoop_temp (fun a b => a + b / 2) y (List.map (fun d => h * d) (f t y))
    (fresh n) n hy hk1 (length_fresh n)
  simp only [] at t1
  rw [t1, ← vadd_vhalf]
  rw [show List.map (fun d => h * d) (f t y) = specK1 f t h y from rfl]
  -- k2
  have e2 := forLoop_scale (fun a b => a + b * 2) h
    (f (t + h / 2) (vadd y (vhalf (specK1 f t h y))))
    (List.zipWith (fun _ d => h * d) (fresh n : List K) (f t y)) n (hf _ _ ht1) hy1
  simp only [] at e2
  rw [e2]
  simp only []
  have hy2 : (List.zipWith (fun a d => a + h * d * 2)
      (List.zipWith (fun _ d => h * d) (fresh n : List K) (f t y))
      (f (t + h / 2) (vadd y (vhalf (specK1 f t h y))))).length = n :=
    length_zipWith_same _ _ _ n hy1 (hf _ _ ht1)
  rw [show List.map (fun d => h * d) (f (t + h / 2) (vadd y (vhalf (specK1 f t h y))))
      = specK2 f t h y from rfl]
  -- temp = y + k2/2
  have t2 := forLoop_temp (fun a b => a + b / 2) y (specK2 f t h y)
    (vadd y (vhalf (specK1 f t h y))) n hy hk2 ht1
  simp only [] at t2
  rw [t2, ← vadd_vhalf]
  -- k3
  have e3 := forLoop_scale (fun a b => a + b * 2) h
    (f (t + h / 2) (vadd y (vhalf (specK2 f t h y)))) _ n (hf _ _ ht2) hy2
  simp only [] at e3
  rw [e3]
  simp only []
  have hy3 : (List.zipWith (fun a d => a + h * d * 2)
      (List.zipWith (fun a d => a + h * d * 2)
        (List.zipWith (fun _ d => h * d) (fresh n : List K) (f t y))
        (f (t + h / 2) (vadd y (vhalf (specK1 f t h y)))))
      (f (t + h / 2) (vadd y (vhalf (specK2 f t h y))))).length = n :=
    length_zipWith_same _ _ _ n hy2 (hf _ _ ht2)
  rw [show List.map (fun d => h * d) (f (t + h / 2) (vadd y (vhalf (specK2 f t h y))))
      = specK3 f t h y from rfl]
  -- temp = y + k3
  have t3 := forLoop_temp (fun a b => a + b) y (specK3 f t h y)
    (vadd y (vhalf (specK2 f t h y))) n hy hk3 ht2
  simp only [] at t3
  rw [t3, show List.zipWith (fun a b => a + b) y (specK3 f t h y)
      = vadd y (specK3 f t h y) from rfl]
  -- k4
  have e4 := forLoop_scale (fun a b => a + b) h
    (f (t + h) (vadd y (specK3 f t h y))) _ n (hf _ _ ht3) hy3
  simp only [] at e4
  rw [e4]
  simp only []
  have hy4 : (List.zipWith (fun a d => a + h * d)
      (List.zipWith (fun a d => a + h * d * 2)
        (List.zipWith (fun a d => a + h * d * 2)
          (List.zipWith (fun _ d => h * d) (fresh n : List K) (f t y))
          (f (t + h / 2) (vadd y (vhalf (specK1 f t h y)))))
        (f (t + h / 2) (vadd y (vhalf (specK2 f t h y)))))
      (f (t + h) (vadd y (specK3 f t h y)))).length = n :=
    length_zipWith_same _ _ _ n hy3 (hf _ _ ht3)
  -- y_next = y + y_next / 6
  obtain ⟨hl, hr⟩ := forLoop_single (fun i v => rd y i + v / 6) _ n (le_of_eq hy4.symm)
  apply ext_rd
  · rw [hl, hy4]
    exact (length_zipWith_same _ _ _ n hy hy4).symm
  · intro j hj
    rw [hl, hy4] at hj
    rw [hr j, if_pos hj]
    exact (rd_zipWith (fun a s => a + s / 6) _ _ j (hy.symm ▸ hj) (hy4.symm ▸ hj)).symm

/-- Entry `i` of the stepped state, stage by stage. -/
theorem rk4v_rd [Field K] (n : Nat) (f : K → List K → List K) (t h : K) (y : List K)
    (hy : y.length = n) (hf : ∀ s z, z.length = n → (f s z).length = n) :
    (rk4v n f t h y).length = n ∧
    ∀ i, i < n → rd (rk4v n f t h y) i =
      rd y i + (rd (specK1 f t h y) i + 2 * rd (specK2 f t h y) i
        + 2 * rd (specK3 f t h y) i + rd (specK4 f t h y) i) / 6 := by
  have hk1 : (specK1 f t h y).length = n := by
    rw [specK1, length_vscale]; exact hf t y hy
  have ht1 : (vadd y (vhalf (specK1 f t h y))).length = n := by
    rw [vadd_vhalf]; exact length_zipWith_same _ _ _ n hy hk1
  have hk2 : (specK2 f t h y).length = n := by
    rw [specK2, length_vscale]; exact hf _ _ ht1
  have ht2 : (vadd y (vhalf (specK2 f t h y))).length = n := by
    rw [vadd_vhalf]; exact length_zipWith_same _ _ _ n hy hk2
  have hk3 : (specK3 f t h y).length = n := by
    rw [specK3, length_vscale]; exact hf _ _ ht2
  have ht3 : (vadd y (specK3 f t h y)).length = n :=
    length_zipWith_same _ _ _ n hy hk3
  have hf1 := hf t y hy
  have hf2 := hf (t + h / 2) _ ht1
  have hf3 := hf (t + h / 2) _ ht2
  have hf4 := hf (t + h) _ ht3
  rw [rk4v_closed n f t h y hy hf]
  have hy1 : (List.zipWith (fun _ d => h * d) (fresh n : List K) (f t y)).length = n :=
    length_zipWith_same _ (fresh n) _ n (length_fresh n) hf1
  have hy2 : (List.zipWith (fun a d => a + h * d * 2)
      (List.zipWith (fun _ d => h * d) (fresh n : List K) (f t y))
      (f (t + h / 2) (vadd y (vhalf (specK1 f t h y))))).length = n :=
    length_zipWith_same _ _ _ n hy1 hf2
  have hy3 : (List.zipWith (fun a d => a + h * d * 2)
      (List.zipWith (fun a d => a + h * d * 2)
        (List.zipWith (fun _ d => h * d) (fresh n : List K) (f t y))
        (f (t + h / 2) (vadd y (vhalf (specK1 f t h y)))))
      (f (t + h / 2) (vadd y (vhalf (specK2 f t h y))))).length = n :=
    length_zipWith_same _ _ _ n hy2 hf3
  have hy4 : (List.zipWith (fun a d => a + h * d)
      (List.zipWith (fun a d => a + h * d * 2)
        (List.zipWith (fun a d => a + h * d * 2)
          (List.zipWith (fun _ d => h * d) (fresh n : List K) (f t y))
          (f (t + h / 2) (vadd y (vhalf (specK1 f t h y)))))
        (f (t + h / 2) (vadd y (vhalf (specK2 f t h y)))))
      (f (t + h) (vadd y (specK3 f t h y)))).length = n :=
    length_zipWith_same _ _ _ n hy3 hf4
  refine ⟨length_zipWith_same _ _ _ n hy hy4, ?_⟩
  intro i hi
  rw [rd_zipWith (fun a s => a + s / 6) _ _ i (hy.symm ▸ hi) (hy4.symm ▸ hi),
    rd_zipWith (fun a d => a + h * d) _ _ i (hy3.symm ▸ hi) (hf4.symm ▸ hi),
    rd_zipWith (fun a d => a + h * d * 2) _ _ i (hy2.symm ▸ hi) (hf3.symm ▸ hi),
    rd_zipWith (fun a d => a + h * d * 2) _ _ i (hy1.symm ▸ hi) (hf2.symm ▸ hi),
    rd_zipWith (fun _ d => h * d) (fresh n : List K) _ i
      ((length_fresh n : (fresh n : List K).length = n).symm ▸ hi) (hf1.symm ▸ hi)]
  have r1 : rd (specK1 f t h y) i = h * rd (f t y) i :=
    rd_map _ _ i (hf1.symm ▸ hi)
  have r2 : rd (specK2 f t h y) i
      = h * rd (f (t + h / 2) (vadd y (vhalf (specK1 f t h y)))) i :=
    rd_map _ _ i (hf2.symm ▸ hi)
  have r3 : rd (specK3 f t h y) i
      = h * rd (f (t + h / 2) (vadd y (vhalf (specK2 f t h y)))) i :=
    rd_map _ _ i (hf3.symm ▸ hi)
  have r4 : rd (specK4 f t h y) i = h * rd (f (t + h) (vadd y (specK3 f t h y))) i :=
    rd_map _ _ i (hf4.symm ▸ hi)
  rw [r1, r2, r3, r4]
  ring

theorem length_vectorOf [Field K] (f : List (K → List K → K)) (s : K) (z : List K) :
    (vectorOf f s z).length = f.length := by
  simp [vectorOf]

theorem rd_vectorOf [Field K] (f : List (K → List K → K)) (s : K) (z : List K) (j : Nat)
    (hj : j < f.length) :
    rd (vectorOf f s z) j = f.getD j (fun _ _ => 0) s z := by
  simp [rd, vectorOf, List.getD_eq_getElem?_getD, List.getElem?_eq_getElem hj]

/-- The `k[i] = h * f[i](s, z); y_next[i] = q(y_next[i], k[i])` loops of `rk4`. -/
theorem forLoop_fn [Field K] (q : K → K → K) (h : K) (f : List (K → List K → K))
    (s : K) (z : List K) (k yn : List K) (n : Nat)
    (hf : f.length = n) (hk : k.length = n) (hy : yn.length = n) :
    forLoop (fun i (st : List K × List K) =>
        (wr st.1 i (h * f.getD i (fun _ _ => 0) s z),
         wr st.2 i (q (rd st.2 i) (rd (wr st.1 i (h * f.getD i (fun _ _ => 0) s z)) i))))
        n (k, yn)
      = ((vectorOf f s z).map (fun d => h * d),
         List.zipWith (fun a d => q a (h * d)) yn (vectorOf f s z)) := by
  obtain ⟨hl1, hl2, hr1, hr2⟩ :=
    forLoop_pair (fun i _ => h * f.getD i (fun _ _ => 0) s z) (fun _ a b => q a b) k yn n
      (le_of_eq hk.symm) (le_of_eq hy.symm)
  have hv : (vectorOf f s z).length = n := by rw [length_vectorOf, hf]
  refine Prod.ext ?_ ?_
  · apply ext_rd
    · rw [hl1, hk]; simp [hv]
    · intro j hj
      have hj2 : j < n := by rw [← hk, ← hl1]; exact hj
      rw [hr1 j, if_pos hj2, rd_map _ _ j (hv.symm ▸ hj2), rd_vectorOf f s z j (hf.symm ▸ hj2)]
  · apply ext_rd
    · rw [hl2, hy]; exact (length_zipWith_same _ _ _ n hy hv).symm
    · intro j hj
      have hj2 : j < n := by rw [← hy, ← hl2]; exact hj
      rw [hr2 j, if_pos hj2, rd_zipWith _ yn _ j (hy.symm ▸ hj2) (hv.symm ▸ hj2),
        rd_vectorOf f s z j (hf.symm ▸ hj2)]

/-- The loops of `rk4` computed in closed form: the same accumulator as in
`rk4v_closed`, for the vector function made of the scalar functions. -/
theorem rk4_closed [Field K] (n : Nat) (f : List (K → List K → K)) (t h : K) (y : List K)
    (hy : y.length = n) (hf : f.length = n) :
    rk4 n f t h y =
      List.zipWith (fun a s => a + s / 6) y
        (List.zipWith (fun a d => a + h * d)
          (List.zipWith (fun a d => a + h * d * 2)
            (List.zipWith (fun a d => a + h * d * 2)
              (List.zipWith (fun _ d => h * d) (fresh n : List K) (vectorOf f t y))
              (vectorOf f (t + h / 2) (vadd y (vhalf (specK1 (vectorOf f) t h y)))))
            (vectorOf f (t + h / 2) (vadd y (vhalf (specK2 (vectorOf f) t h y)))))
          (vectorOf f (t + h) (vadd y (specK3 (vectorOf f) t h y)))) := by
  have hv : ∀ s z, (vectorOf f s z).length = n := fun s z => by rw [length_vectorOf, hf]
  have hk1 : (specK1 (vectorOf f) t h y).length = n := by
    rw [specK1, length_vscale]; exact hv _ _
  have ht1 : (vadd y (vhalf (specK1 (vectorOf f) t h y))).length = n := by
    rw [vadd_vhalf]; exact length_zipWith_same _ _ _ n hy hk1
  have hk2 : (specK2 (vectorOf f) t h y).length = n := by
    rw [specK2, length_vscale]; exact hv _ _
  have ht2 : (vadd y (vhalf (specK2 (vectorOf f) t h y))).length = n := by
    rw [vadd_vhalf]; exact length_zipWith_same _ _ _ n hy hk2
  have hk3 : (specK3 (vectorOf f) t h y).length = n := by
    rw [specK3, length_vscale]; exact hv _ _
  unfold rk4
  simp only []
  -- k1
  have e1 := forLoop_fn (fun _ b => b) h f t y (fresh n) (fresh n) n hf
    (length_fresh n) (length_fresh n)
  simp only [] at e1
  rw [e1]
  simp only []
  have hy1 : (List.zipWith (fun _ d => h * d) (fresh n : List K) (vectorOf f t y)).length = n :=
    length_zipWith_same _ (fresh n) _ n (length_fresh n) (hv _ _)
  rw [show List.map (fun d => h * d) (vectorOf f t y) = specK1 (vectorOf f) t h y from rfl]
  -- temp = y + k1/2
  have t1 := forLoop_temp (fun a b => a + b / 2) y (specK1 (vectorOf f) t h y)
    (fresh n) n hy hk1 (length_fresh n)
  simp only [] at t1
  rw [t1, ← vadd_vhalf]
  -- k2
  have e2 := forLoop_fn (fun a b => a + b * 2) h f (t + h / 2)
    (vadd y (vhalf (specK1 (vectorOf f) t h y))) (specK1 (vectorOf f) t h y)
    (List.zipWith (fun _ d => h * d) (fresh n : List K) (vectorOf f t y)) n hf hk1 hy1
  simp only [] at e2
  rw [e2]
  simp only []
  have hy2 : (List.zipWith (fun a d => a + h * d * 2)
      (List.zipWith (fun _ d => h * d) (fresh n : List K) (vectorOf f t y))
      (vectorOf f (t + h / 2) (vadd y (vhalf (specK1 (vectorOf f) t h y))))).length = n :=
    length_zipWith_same _ _ _ n hy1 (hv _ _)
  rw [show List.map (fun d => h * d)
        (vectorOf f (t + h / 2) (vadd y (vhalf (specK1 (vectorOf f) t h y))))
      = specK2 (vectorOf f) t h y from rfl]
  -- temp = y + k2/2
  have t2 := forLoop_temp (fun a b => a + b / 2) y (specK2 (vectorOf f) t h y)
    (vadd y (vhalf (specK1 (vectorOf f) t h y))) n hy hk2 ht1
  simp only [] at t2
  rw [t2, ← vadd_vhalf]
  -- k3
  have e3 := forLoop_fn (fun a b => a + b * 2) h f (t + h / 2)
    (vadd y (vhalf (specK2 (vectorOf f) t h y))) (specK2 (vectorOf f) t h y) _ n hf hk2 hy2
  simp only [] at e3
  rw [e3]
  simp only []
  have hy3 : (List.zipWith (fun a d => a + h * d * 2)
      (List.zipWith (fun a d => a + h * d * 2)
        (List.zipWith (fun _ d => h * d) (fresh n : List K) (vectorOf f t y))
        (vectorOf f (t + h / 2) (vadd y (vhalf (specK1 (vectorOf f) t h y)))))
      (vectorOf f (t + h / 2) (vadd y (vhalf (specK2 (vectorOf f) t h y))))).length = n :=
    length_zipWith_same _ _ _ n hy2 (hv _ _)
  rw [show List.map (fun d => h * d)
        (vectorOf f (t + h / 2) (vadd y (vhalf (specK2 (vectorOf f) t h y))))
      = specK3 (vectorOf f) t h y from rfl]
  -- temp = y + k3
  have t3 := forLoop_temp (fun a b => a + b) y (specK3 (vectorOf f) t h y)
    (vadd y (vhalf (specK2 (vectorOf f) t h y))) n hy hk3 ht2
  simp only [] at t3
  rw [t3, show List.zipWith (fun a b => a + b) y (specK3 (vectorOf f) t h y)
      = vadd y (specK3 (vectorOf f) t h y) from rfl]
  -- k4
  have e4 := forLoop_fn (fun a b => a + b) h f (t + h)
    (vadd y (specK3 (vectorOf f) t h y)) (specK3 (vectorOf f) t h y) _ n hf hk3 hy3
  simp only [] at e4
  rw [e4]
  simp only []
  have hy4 : (List.zipWith (fun a d => a + h * d)
      (List.zipWith (fun a d => a + h * d * 2)
        (List.zipWith (fun a d => a + h * d * 2)
          (List.zipWith (fun _ d => h * d) (fresh n : List K) (vectorOf f t y))
          (vectorOf f (t + h / 2) (vadd y (vhalf (specK1 (vectorOf f) t h y)))))
        (vectorOf f (t + h / 2) (vadd y (vhalf (specK2 (vectorOf f) t h y)))))
      (vectorOf f (t + h) (vadd y (specK3 (vectorOf f) t h y)))).length = n :=
    length_zipWith_same _ _ _ n hy3 (hv _ _)
  -- y_next = y + y_next / 6
  obtain ⟨hl, hr⟩ := forLoop_single (fun i v => rd y i + v / 6) _ n (le_of_eq hy4.symm)
  apply ext_rd
  · rw [hl, hy4]
    exact (length_zipWith_same _ _ _ n hy hy4).symm
  · intro j hj
    rw [hl, hy4] at hj
    rw [hr j, if_pos hj]
    exact (rd_zipWith (fun a s => a + s / 6) _ _ j (hy.symm ▸ hj) (hy4.symm ▸ hj)).symm

/-- Both calling conventions compute the same step. -/
theorem rk4_eq_rk4v_vectorOf [Field K] (n : Nat) (f : List (K → List K → K)) (t h : K)
    (y : List K) (hy : y.length = n) (hf : f.length = n) :
    rk4 n f t h y = rk4v n (vectorOf f) t h y := by
  rw [rk4_closed n f t h y hy hf,
    rk4v_closed n (vectorOf f) t h y hy (fun s z _ => by rw [length_vectorOf, hf])]

end LoopLemmas

/-! ## Bounding box lemmas -/

theorem wrChk_eq_some {K : Type} (a : List K) (j : Nat) (v : K) (h : j < a.length) :
    wrChk a j v = some (wr a j v) := by
  simp [wrChk, wr, h]

section BoundsLemmas

variable {K : Type} [LinearOrderedField K]

theorem getElem?_eq_some_rd (a : List K) (j : Nat) (h : j < a.length) :
    a[j]? = some (rd a j) := by
  simp [rd, List.getD_eq_getElem?_getD, List.getElem?_eq_getElem h]

/-- The coded rule on one component, as values. -/
theorem updateBounds_rd (B : Nat) (yn mn mx : List K)
    (hy : B ≤ yn.length) (hmn : B ≤ mn.length) (hmx : B ≤ mx.length) :
    ∃ mn1 mx1, updateBounds B yn mn mx = some (mn1, mx1) ∧
      mn1.length = mn.length ∧ mx1.length = mx.length ∧
      (∀ j, rd mn1 j =
        if j < B then (if rd mn j > rd yn j then rd yn j else rd mn j) else rd mn j) ∧
      (∀ j, rd mx1 j =
        if j < B then
          (if rd mn j > rd yn j then rd mx j
           else if rd mx j < rd yn j then rd yn j else rd mx j)
        else rd mx j) := by
  induction B with
  | zero => exact ⟨mn, mx, rfl, rfl, rfl, by simp, by simp⟩
  | succ B ih =>
    obtain ⟨mn1, mx1, he, hl1, hl2, hr1, hr2⟩ :=
      ih (Nat.le_of_succ_le hy) (Nat.le_of_succ_le hmn) (Nat.le_of_succ_le hmx)
    have hB1 : B < mn1.length := by rw [hl1]; exact hmn
    have hB2 : B < mx1.length := by rw [hl2]; exact hmx
    have hB3 : B < yn.length := hy
    rw [updateBounds] at he
    simp only [updateBounds, forLoopChk, he, Option.some_bind,
      getElem?_eq_some_rd mn1 B hB1, getElem?_eq_some_rd mx1 B hB2,
      getElem?_eq_some_rd yn B hB3]
    have e1 : rd mn1 B = rd mn B := by rw [hr1 B]; simp
    have e2 : rd mx1 B = rd mx B := by rw [hr2 B]; simp
    by_cases c1 : rd mn1 B > rd yn B
    · rw [if_pos c1, wrChk_eq_some mn1 B _ hB1]
      refine ⟨_, _, rfl, by rw [length_wr, hl1], hl2, ?_, ?_⟩
      · intro j
        rw [rd_wr _ _ _ _ hB1, hr1 j]
        by_cases hj : j = B
        · subst hj; rw [e1] at c1; simp [c1]
        · by_cases hlt : j < B
          · simp [hj, hlt, Nat.lt_succ_of_lt hlt]
          · have : ¬ j < B + 1 := by omega
            simp [hj, hlt, this]
      · intro j
        rw [hr2 j]
        by_cases hj : j = B
        · subst hj; rw [e1] at c1; simp [c1]
        · by_cases hlt : j < B
          · simp [hlt, Nat.lt_succ_of_lt hlt]
          · have : ¬ j < B + 1 := by omega
            simp [hlt, this]
    · rw [if_neg c1]
      by_cases c2 : rd mx1 B < rd yn B
      · rw [if_pos c2, wrChk_eq_some mx1 B _ hB2]
        refine ⟨_, _, rfl, hl1, by rw [length_wr, hl2], ?_, ?_⟩
        · intro j
          rw [hr1 j]
          by_cases hj : j = B
          · subst hj; rw [e1] at c1; simp [c1]
          · by_cases hlt : j < B
            · simp [hlt, Nat.lt_succ_of_lt hlt]
            · have : ¬ j < B + 1 := by omega
              simp [hlt, this]
        · intro j
          rw [rd_wr _ _ _ _ hB2, hr2 j]
          by_cases hj : j = B
          · subst hj; rw [e1] at c1; rw [e2] at c2; simp [c1, c2]
          · by_cases hlt : j < B
            · simp [hj, hlt, Nat.lt_succ_of_lt hlt]
            · have : ¬ j < B + 1 := by omega
              simp [hj, hlt, this]
      · rw [if_neg c2]
        refine ⟨_, _, rfl, hl1, hl2, ?_, ?_⟩
        · intro j
          rw [hr1 j]
          by_cases hj : j = B
          · subst hj; rw [e1] at c1; simp [c1]
          · by_cases hlt : j < B
            · simp [hlt, Nat.lt_succ_of_lt hlt]
            · have : ¬ j < B + 1 := by omega
              simp [hlt, this]
        · intro j
          rw [hr2 j]
          by_cases hj : j = B
          · subst hj; rw [e1] at c1; rw [e2] at c2; simp [c1, c2]
          · by_cases hlt : j < B
            · simp [hlt, Nat.lt_succ_of_lt hlt]
            · have : ¬ j < B + 1 := by omega
              simp [hlt, this]

/-- The initialisation loop copies the first `B` entries of `y` into both
arrays. -/
theorem initBounds_rd (N B : Nat) (y : List K) (hB : B ≤ N) (hy : B ≤ y.length) :
    ∃ mn mx, initBounds N B y = some (mn, mx) ∧ mn.length = N ∧ mx.length = N ∧
      (∀ j, rd mn j = if j < B then rd y j else 0) ∧
      (∀ j, rd mx j = if j < B then rd y j else 0) := by
  induction B with
  | zero =>
    refine ⟨fresh N, fresh N, rfl, length_fresh N, length_fresh N, ?_, ?_⟩ <;>
    · intro j
      simp only [rd, fresh, List.getD_eq_getElem?_getD, List.getElem?_replicate]
      split <;> simp
  | succ B ih =>
    obtain ⟨mn, mx, he, hl1, hl2, hr1, hr2⟩ :=
      ih (Nat.le_of_succ_le hB) (Nat.le_of_succ_le hy)
    have hB1 : B < mn.length := by rw [hl1]; exact hB
    have hB2 : B < mx.length := by rw [hl2]; exact hB
    rw [initBounds] at he
    simp only [initBounds, forLoopChk, he, Option.some_bind,
      getElem?_eq_some_rd y B hy, wrChk_eq_some mn B _ hB1, wrChk_eq_some mx B _ hB2]
    refine ⟨_, _, rfl, by rw [length_wr, hl1], by rw [length_wr, hl2], ?_, ?_⟩
    · intro j
      rw [rd_wr _ _ _ _ hB1, hr1 j]
      by_cases hj : j = B
      · subst hj; simp
      · by_cases hlt : j < B
        · simp [hj, hlt, Nat.lt_succ_of_lt hlt]
        · have : ¬ j < B + 1 := by omega
          simp [hj, hlt, this]
    · intro j
      rw [rd_wr _ _ _ _ hB2, hr2 j]
      by_cases hj : j = B
      · subst hj; simp
      · by_cases hlt : j < B
        · simp [hj, hlt, Nat.lt_succ_of_lt hlt]
        · have : ¬ j < B + 1 := by omega
          simp [hj, hlt, this]

/-- Over all `N` components the box starts as the initial state itself. -/
theorem initBounds_full (N : Nat) (y : List K) (hy : y.length = N) :
    initBounds N N y = some (y, y) := by
  obtain ⟨mn, mx, he, hl1, hl2, hr1, hr2⟩ := initBounds_rd N N y le_rfl (le_of_eq hy.symm)
  have e1 : mn = y := by
    apply ext_rd (by rw [hl1, hy])
    intro j hj
    rw [hr1 j, if_pos (hl1 ▸ hj)]
  have e2 : mx = y := by
    apply ext_rd (by rw [hl2, hy])
    intro j hj
    rw [hr2 j, if_pos (hl2 ▸ hj)]
  rw [he, e1, e2]

/-- On a box with `min ≤ max` the coded rule is `min`/`max` on every
component. -/
theorem updateBounds_min_max (N : Nat) (yn mn mx : List K)
    (hy : yn.length = N) (hmn : mn.length = N) (hmx : mx.length = N)
    (hle : ∀ j, j < N → rd mn j ≤ rd mx j) :
    ∃ mn1 mx1, updateBounds N yn mn mx = some (mn1, mx1) ∧
      mn1.length = N ∧ mx1.length = N ∧
      (∀ j, j < N → rd mn1 j = min (rd mn j) (rd yn j)) ∧
      (∀ j, j < N → rd mx1 j = max (rd mx j) (rd yn j)) := by
  obtain ⟨mn1, mx1, he, hl1, hl2, hr1, hr2⟩ :=
    updateBounds_rd N yn mn mx (le_of_eq hy.symm) (le_of_eq hmn.symm) (le_of_eq hmx.symm)
  refine ⟨mn1, mx1, he, by rw [hl1, hmn], by rw [hl2, hmx], ?_, ?_⟩
  · intro j hj
    rw [hr1 j, if_pos hj]
    by_cases c1 : rd mn j > rd yn j
    · rw [if_pos c1, min_eq_right (le_of_lt c1)]
    · rw [if_neg c1, min_eq_left (not_lt.mp c1)]
  · intro j hj
    rw [hr2 j, if_pos hj]
    by_cases c1 : rd mn j > rd yn j
    · rw [if_pos c1, max_eq_left (le_trans (le_of_lt c1) (hle j hj))]
    · rw [if_neg c1]
      by_cases c2 : rd mx j < rd yn j
      · rw [if_pos c2, max_eq_right (le_of_lt c2)]
      · rw [if_neg c2, max_eq_left (not_lt.mp c2)]

theorem foldl_min_le (g : List K → K) (l : List (List K)) (m : K) :
    l.foldl (fun m s => min m (g s)) m ≤ m ∧
    ∀ s ∈ l, l.foldl (fun m s => min m (g s)) m ≤ g s := by
  induction l generalizing m with
  | nil => simp
  | cons a l ih =>
    obtain ⟨h1, h2⟩ := ih (min m (g a))
    refine ⟨le_trans h1 (min_le_left _ _), ?_⟩
    intro s hs
    rcases List.mem_cons.mp hs with e | e
    · subst e; exact le_trans h1 (min_le_right _ _)
    · exact h2 s e

theorem le_foldl_max (g : List K → K) (l : List (List K)) (m : K) :
    m ≤ l.foldl (fun m s => max m (g s)) m ∧
    ∀ s ∈ l, g s ≤ l.foldl (fun m s => max m (g s)) m := by
  induction l generalizing m with
  | nil => simp
  | cons a l ih =>
    obtain ⟨h1, h2⟩ := ih (max m (g a))
    refine ⟨le_trans (le_max_left _ _) h1, ?_⟩
    intro s hs
    rcases List.mem_cons.mp hs with e | e
    · subst e; exact le_trans (le_max_right _ _) h1
    · exact h2 s e

/-- Feeding next states to the coded rule, from a box with `min ≤ max`. -/
theorem foldl_updateBounds (N : Nat) (nexts : List (List K)) (mn mx : List K)
    (hmn : mn.length = N) (hmx : mx.length = N)
    (hle : ∀ j, j < N → rd mn j ≤ rd mx j)
    (hn : ∀ s ∈ nexts, s.length = N) :
    ∃ mn1 mx1,
      nexts.foldl (fun acc y_next => acc.bind fun box => updateBounds N y_next box.1 box.2)
        (some (mn, mx)) = some (mn1, mx1) ∧
      mn1.length = N ∧ mx1.length = N ∧
      (∀ j, j < N → rd mn1 j ≤ rd mx1 j) ∧
      (∀ j, j < N → rd mn1 j = nexts.foldl (fun m s => min m (rd s j)) (rd mn j)) ∧
      (∀ j, j < N → rd mx1 j = nexts.foldl (fun m s => max m (rd s j)) (rd mx j)) := by
  induction nexts generalizing mn mx with
  | nil => exact ⟨mn, mx, rfl, hmn, hmx, hle, fun _ _ => rfl, fun _ _ => rfl⟩
  | cons a l ih =>
    obtain ⟨mn1, mx1, he, hl1, hl2, hr1, hr2⟩ :=
      updateBounds_min_max N a mn mx (hn a (List.mem_cons_self a l)) hmn hmx hle
    have hle1 : ∀ j, j < N → rd mn1 j ≤ rd mx1 j := by
      intro j hj
      rw [hr1 j hj, hr2 j hj]
      exact le_trans (min_le_left _ _) (le_trans (hle j hj) (le_max_left _ _))
    obtain ⟨mn2, mx2, he2, hl21, hl22, hle2, hr21, hr22⟩ :=
      ih mn1 mx1 hl1 hl2 hle1 (fun s hs => hn s (List.mem_cons_of_mem a hs))
    refine ⟨mn2, mx2, ?_, hl21, hl22, hle2, ?_, ?_⟩
    · simp only [List.foldl_cons, Option.some_bind, he]
      exact he2
    · intro j hj
      rw [hr21 j hj, hr1 j hj]; rfl
    · intro j hj
      rw [hr22 j hj, hr2 j hj]; rfl

/-- The bounding box after any sequence of next states is the reference
reduction over the initial state and that sequence. -/
theorem boundsAfter_ref (N : Nat) (y0 : List K) (nexts : List (List K))
    (hy : y0.length = N) (hn : ∀ s ∈ nexts, s.length = N) :
    ∃ mn mx, boundsAfter N N y0 nexts = some (mn, mx) ∧
      mn.length = N ∧ mx.length = N ∧
      (∀ j, j < N → rd mn j ≤ rd mx j) ∧
      (∀ j, j < N → rd mn j = refMin j y0 nexts) ∧
      (∀ j, j < N → rd mx j = refMax j y0 nexts) := by
  rw [boundsAfter, initBounds_full N y0 hy]
  exact foldl_updateBounds N nexts y0 y0 hy hy (fun _ _ => le_rfl) hn

/-- A successful bounding box update keeps the lengths of `min` and `max`. -/
theorem updateBounds_length (B : Nat) (yn mn mx mn1 mx1 : List K)
    (he : updateBounds B yn mn mx = some (mn1, mx1)) :
    mn1.length = mn.length ∧ mx1.length = mx.length := by
  induction B generalizing mn1 mx1 with
  | zero =>
    simp only [updateBounds, forLoopChk, Option.some.injEq, Prod.mk.injEq] at he
    obtain ⟨rfl, rfl⟩ := he
    exact ⟨rfl, rfl⟩
  | succ B ih =>
    simp only [updateBounds, forLoopChk] at he
    cases hprev : forLoopChk (fun j (s : List K × List K) =>
        (s.1[j]?).bind fun m =>
        (yn[j]?).bind fun v =>
        if m > v then
          (wrChk s.1 j v).bind fun mn => some (mn, s.2)
        else
          (s.2[j]?).bind fun M =>
          if M < v then
            (wrChk s.2 j v).bind fun mx => some (s.1, mx)
          else some s) B (mn, mx) with
    | none => rw [hprev] at he; simp at he
    | some s =>
      obtain ⟨a, b⟩ := s
      obtain ⟨h1, h2⟩ := ih a b (by rw [updateBounds]; exact hprev)
      rw [hprev] at he
      simp only [Option.some_bind] at he
      cases ha : a[B]? with
      | none => rw [ha] at he; simp at he
      | some m =>
        cases hv : yn[B]? with
        | none => rw [ha, hv] at he; simp at he
        | some v =>
          rw [ha, hv] at he
          simp only [Option.some_bind] at he
          by_cases c1 : m > v
          · rw [if_pos c1] at he
            unfold wrChk at he
            split at he
            · simp only [Option.some_bind, Option.some.injEq, Prod.mk.injEq] at he
              obtain ⟨rfl, rfl⟩ := he
              exact ⟨by simp [h1], h2⟩
            · simp at he
          · rw [if_neg c1] at he
            cases hb : b[B]? with
            | none => rw [hb] at he; simp at he
            | some M =>
              rw [hb] at he
              simp only [Option.some_bind] at he
              by_cases c2 : M < v
              · rw [if_pos c2] at he
                unfold wrChk at he
                split at he
                · simp only [Option.some_bind, Option.some.injEq, Prod.mk.injEq] at he
                  obtain ⟨rfl, rfl⟩ := he
                  exact ⟨h1, by simp [h2]⟩
                · simp at he
              · rw [if_neg c2] at he
                simp only [Option.some.injEq, Prod.mk.injEq] at he
                obtain ⟨rfl, rfl⟩ := he
                exact ⟨h1, h2⟩

/-- A bounding box update over more components than `min` has reads `min`
out of range and fails. -/
theorem updateBounds_out_of_range (B : Nat) (yn mn mx : List K) (h : mn.length < B) :
    updateBounds B yn mn mx = none := by
  induction B with
  | zero => omega
  | succ B ih =>
    cases hprev : updateBounds B yn mn mx with
    | none =>
      rw [updateBounds] at hprev
      simp only [updateBounds, forLoopChk, hprev, Option.none_bind]
    | some s =>
      obtain ⟨a, b⟩ := s
      have hB : mn.length = B := by
        by_contra hne
        have hlt : mn.length < B := by omega
        rw [ih hlt] at hprev
        cases hprev
      obtain ⟨h1, _⟩ := updateBounds_length B yn mn mx a b hprev
      have hnone : a[B]? = none := by
        apply List.getElem?_eq_none
        rw [h1, hB]
      rw [updateBounds] at hprev
      simp only [updateBounds, forLoopChk, hprev, Option.some_bind, hnone, Option.none_bind]

end BoundsLemmas

/-! ## Driver lemmas -/

section StateLemmas

variable {K : Type}

theorem stateAt_length (N : Nat) (next : Nat → List K → List K) (y0 : List K)
    (hy : y0.length = N) (hnext : ∀ i y, y.length = N → (next i y).length = N) (k : Nat) :
    (stateAt next y0 k).length = N := by
  induction k with
  | zero => exact hy
  | succ k ih => exact hnext k _ ih

theorem nextStates_succ (next : Nat → List K → List K) (y0 : List K) (k : Nat) :
    nextStates next y0 (k + 1) = nextStates next y0 k ++ [stateAt next y0 (k + 1)] := by
  simp [nextStates, List.range_succ]

theorem nextStates_length (N : Nat) (next : Nat → List K → List K) (y0 : List K)
    (hy : y0.length = N) (hnext : ∀ i y, y.length = N → (next i y).length = N) (k : Nat) :
    ∀ s ∈ nextStates next y0 k, s.length = N := by
  intro s hs
  simp only [nextStates, List.mem_map] at hs
  obtain ⟨i, _, rfl⟩ := hs
  exact stateAt_length N next y0 hy hnext (i + 1)

end StateLemmas

section DriverLemmas

variable {K : Type} [LinearOrderedField K]

theorem copyState_rd (M : Nat) (yn y : List K) (hyn : M ≤ yn.length) (hy : M ≤ y.length) :
    ∃ y1, copyState M yn y = some y1 ∧ y1.length = y.length ∧
      ∀ j, rd y1 j = if j < M then rd yn j else rd y j := by
  induction M with
  | zero => exact ⟨y, rfl, rfl, by simp⟩
  | succ M ih =>
    obtain ⟨y1, he, hl, hr⟩ := ih (Nat.le_of_succ_le hyn) (Nat.le_of_succ_le hy)
    have hM : M < y1.length := by rw [hl]; exact hy
    rw [copyState] at he
    simp only [copyState, forLoopChk, he, Option.some_bind,
      getElem?_eq_some_rd yn M hyn, wrChk_eq_some y1 M _ hM]
    refine ⟨_, rfl, by rw [length_wr, hl], ?_⟩
    intro j
    rw [rd_wr _ _ _ _ hM, hr j]
    by_cases hj : j = M
    · subst hj; simp
    · by_cases hlt : j < M
      · simp [hj, hlt, Nat.lt_succ_of_lt hlt]
      · have : ¬ j < M + 1 := by omega
        simp [hj, hlt, this]

/-- The position update overwrites the whole position. -/
theorem copyState_full (N : Nat) (yn y : List K) (hyn : yn.length = N) (hy : y.length = N) :
    copyState N yn y = some yn := by
  obtain ⟨y1, he, hl, hr⟩ := copyState_rd N yn y (le_of_eq hyn.symm) (le_of_eq hy.symm)
  have e : y1 = yn := by
    apply ext_rd (by rw [hl, hy, hyn])
    intro j hj
    rw [hr j, if_pos (by rw [hl, hy] at hj; exact hj)]
  rw [he, e]

theorem drawSegment_eq (y yn : List K) (hy : 2 ≤ y.length) (hyn : 2 ≤ yn.length) :
    drawSegment y yn
      = some [Draw.move_to (rd y 0) (rd y 1), Draw.line_to (rd yn 0) (rd yn 1)] := by
  simp only [drawSegment, getElem?_eq_some_rd y 0 (by omega), getElem?_eq_some_rd y 1 (by omega),
    getElem?_eq_some_rd yn 0 (by omega), getElem?_eq_some_rd yn 1 (by omega), Option.some_bind]

theorem segmentPath_succ (next : Nat → List K → List K) (y0 : List K) (k : Nat) :
    segmentPath next y0 (k + 1) = segmentPath next y0 k ++
      [Draw.move_to (rd (stateAt next y0 k) 0) (rd (stateAt next y0 k) 1),
       Draw.line_to (rd (stateAt next y0 (k + 1)) 0) (rd (stateAt next y0 (k + 1)) 1)] := by
  simp [segmentPath, List.range_succ, List.flatMap_append]

theorem boundsAfter_snoc (N B : Nat) (y0 : List K) (nexts : List (List K)) (yn : List K) :
    boundsAfter N B y0 (nexts ++ [yn])
      = (boundsAfter N B y0 nexts).bind fun box => updateBounds B yn box.1 box.2 := by
  simp [boundsAfter, List.foldl_append]

/-- A segment-drawing trace loop over all `N` components: after `k`
iterations the position is `stateAt k`, the box is the one the bounding-box
code computes from the next states, and the path joins consecutive
positions. -/
theorem traceLoop_segment (N : Nat) (next : Nat → List K → List K) (y0 : List K)
    (hN : 2 ≤ N) (hy : y0.length = N)
    (hnext : ∀ i y, y.length = N → (next i y).length = N) (k : Nat) :
    ∃ mn mx, boundsAfter N N y0 (nextStates next y0 k) = some (mn, mx) ∧
      traceLoop N N N y0 next drawSegment k
        = some { y := stateAt next y0 k, min := mn, max := mx,
                 path := segmentPath next y0 k } := by
  rw [traceLoop, initBounds_full N y0 hy]
  simp only [Option.some_bind]
  induction k with
  | zero =>
    refine ⟨y0, y0, ?_, rfl⟩
    simp [nextStates, boundsAfter, initBounds_full N y0 hy]
  | succ k ih =>
    obtain ⟨mn, mx, hb, hloop⟩ := ih
    obtain ⟨mn0, mx0, hb0, hl1, hl2, hle, _, _⟩ :=
      boundsAfter_ref N y0 (nextStates next y0 k) hy (nextStates_length N next y0 hy hnext k)
    rw [hb] at hb0
    obtain ⟨rfl, rfl⟩ := Prod.mk.inj (Option.some.inj hb0)
    have hlk := stateAt_length N next y0 hy hnext k
    have hlk1 := stateAt_length N next y0 hy hnext (k + 1)
    obtain ⟨mn1, mx1, he, -, -, -, -⟩ :=
      updateBounds_min_max N (stateAt next y0 (k + 1)) mn mx hlk1 hl1 hl2 hle
    refine ⟨mn1, mx1, ?_, ?_⟩
    · rw [nextStates_succ, boundsAfter_snoc, hb]
      exact he
    · simp only [forLoopChk, hloop, Option.some_bind, traceStep]
      rw [show next k (stateAt next y0 k) = stateAt next y0 (k + 1) from rfl, he]
      simp only [Option.some_bind]
      rw [drawSegment_eq _ _ (by omega) (by omega), copyState_full N _ _ hlk1 hlk]
      simp only [Option.some_bind]
      rw [segmentPath_succ]

end DriverLemmas

/-! ## Widening lemmas -/

section WidenLemmas

variable {K : Type} [LinearOrderedField K]

theorem rd_of_getElem? (a : List K) (j : Nat) (m : K) (h : a[j]? = some m) : rd a j = m := by
  simp [rd, List.getD_eq_getElem?_getD, h]

/-- A successful bounding box update, over any number of components, only
lowers entries of `min` and only raises entries of `max`. -/
theorem updateBounds_widens (B : Nat) (yn mn mx mn1 mx1 : List K)
    (he : updateBounds B yn mn mx = some (mn1, mx1)) :
    ∀ j, rd mn1 j ≤ rd mn j ∧ rd mx j ≤ rd mx1 j := by
  induction B generalizing mn1 mx1 with
  | zero =>
    simp only [updateBounds, forLoopChk, Option.some.injEq, Prod.mk.injEq] at he
    obtain ⟨rfl, rfl⟩ := he
    exact fun j => ⟨le_rfl, le_rfl⟩
  | succ B ih =>
    simp only [updateBounds, forLoopChk] at he
    cases hprev : forLoopChk (fun j (s : List K × List K) =>
        (s.1[j]?).bind fun m =>
        (yn[j]?).bind fun v =>
        if m > v then
          (wrChk s.1 j v).bind fun mn => some (mn, s.2)
        else
          (s.2[j]?).bind fun M =>
          if M < v then
            (wrChk s.2 j v).bind fun mx => some (s.1, mx)
          else some s) B (mn, mx) with
    | none => rw [hprev] at he; simp at he
    | some s =>
      obtain ⟨a, b⟩ := s
      have hab := ih a b (by rw [updateBounds]; exact hprev)
      rw [hprev] at he
      simp only [Option.some_bind] at he
      cases ha : a[B]? with
      | none => rw [ha] at he; simp at he
      | some m =>
        cases hv : yn[B]? with
        | none => rw [ha, hv] at he; simp at he
        | some v =>
          rw [ha, hv] at he
          simp only [Option.some_bind] at he
          have hm : rd a B = m := rd_of_getElem? a B m ha
          by_cases c1 : m > v
          · rw [if_pos c1] at he
            unfold wrChk at he
            split at he
            · rename_i hlt
              simp only [Option.some_bind, Option.some.injEq, Prod.mk.injEq] at he
              obtain ⟨rfl, rfl⟩ := he
              intro j
              refine ⟨?_, (hab j).2⟩
              have hw := rd_wr a B j v hlt
              unfold wr at hw
              rw [hw]
              by_cases hj : j = B
              · subst hj
                rw [if_pos rfl]
                exact le_trans (le_of_lt (hm ▸ c1)) (hab j).1
              · rw [if_neg hj]; exact (hab j).1
            · simp at he
          · rw [if_neg c1] at he
            cases hb : b[B]? with
            | none => rw [hb] at he; simp at he
            | some M =>
              rw [hb] at he
              simp only [Option.some_bind] at he
              have hM : rd b B = M := rd_of_getElem? b B M hb
              by_cases c2 : M < v
              · rw [if_pos c2] at he
                unfold wrChk at he
                split at he
                · rename_i hlt
                  simp only [Option.some_bind, Option.some.injEq, Prod.mk.injEq] at he
                  obtain ⟨rfl, rfl⟩ := he
                  intro j
                  refine ⟨(hab j).1, ?_⟩
                  have hw := rd_wr b B j v hlt
                  unfold wr at hw
                  rw [hw]
                  by_cases hj : j = B
                  · subst hj
                    rw [if_pos rfl]
                    exact le_trans (hab j).2 (le_of_lt (hM ▸ c2))
                  · rw [if_neg hj]; exact (hab j).2
                · simp at he
              · rw [if_neg c2] at he
                simp only [Option.some.injEq, Prod.mk.injEq] at he
                obtain ⟨rfl, rfl⟩ := he
                exact hab

/-- One more iteration of a trace loop is one `traceStep` on the state the
loop had reached. -/
theorem traceLoop_succ (N Binit B : Nat) (y0 : List K) (next : Nat → List K → List K)
    (draw : List K → List K → Option (List (Draw K))) (k : Nat) :
    traceLoop N Binit B y0 next draw (k + 1)
      = (traceLoop N Binit B y0 next draw k).bind (traceStep N B next draw k) := by
  unfold traceLoop
  cases initBounds N Binit y0 with
  | none => rfl
  | some box => rfl

/-- In any trace loop, whatever its loop bounds, the box after iteration
`k + 1` is at least as wide as the box after iteration `k`. -/
theorem traceLoop_widens (N Binit B : Nat) (y0 : List K) (next : Nat → List K → List K)
    (draw : List K → List K → Option (List (Draw K))) (k : Nat) (s s1 : Trace K)
    (h0 : traceLoop N Binit B y0 next draw k = some s)
    (h1 : traceLoop N Binit B y0 next draw (k + 1) = some s1) :
    ∀ j, rd s1.min j ≤ rd s.min j ∧ rd s.max j ≤ rd s1.max j := by
  rw [traceLoop_succ, h0] at h1
  simp only [Option.some_bind, traceStep] at h1
  cases hu : updateBounds B (next k s.y) s.min s.max with
  | none => rw [hu] at h1; simp at h1
  | some box =>
    obtain ⟨mn1, mx1⟩ := box
    rw [hu] at h1
    simp only [Option.some_bind] at h1
    cases hd : draw s.y (next k s.y) with
    | none => rw [hd] at h1; simp at h1
    | some calls =>
      rw [hd] at h1
      simp only [Option.some_bind] at h1
      cases hc : copyState N (next k s.y) s.y with
      | none => rw [hc] at h1; simp at h1
      | some y1 =>
        rw [hc] at h1
        simp only [Option.some_bind, Option.some.injEq] at h1
        subst h1
        exact updateBounds_widens B (next k s.y) s.min s.max mn1 mx1 hu

end WidenLemmas

/-! ## Bounds on `sin`, `cos` and `exp` -/

section RealBounds

theorem taylor_sum_ten (x : ℝ) :
    (∑ m ∈ Finset.range 10, ((x : ℂ) * Complex.I) ^ m / (m.factorial : ℂ))
      = ((1 - x ^ 2 / 2 + x ^ 4 / 24 - x ^ 6 / 720 + x ^ 8 / 40320 : ℝ) : ℂ)
        + ((x - x ^ 3 / 6 + x ^ 5 / 120 - x ^ 7 / 5040 + x ^ 9 / 362880 : ℝ) : ℂ)
          * Complex.I := by
  simp only [Finset.sum_range_succ, Finset.range_zero, Finset.sum_empty, mul_pow, Nat.factorial]
  have h2 : Complex.I ^ 2 = -1 := Complex.I_sq
  have h3 : Complex.I ^ 3 = -Complex.I := by rw [pow_succ, h2]; ring
  have h4 : Complex.I ^ 4 = 1 := by rw [pow_succ, h3]; simp
  have h5 : Complex.I ^ 5 = Complex.I := by rw [pow_succ, h4]; ring
  have h6 : Complex.I ^ 6 = -1 := by rw [pow_succ, h5]; simp
  have h7 : Complex.I ^ 7 = -Complex.I := by rw [pow_succ, h6]; ring
  have h8 : Complex.I ^ 8 = 1 := by rw [pow_succ, h7]; simp
  have h9 : Complex.I ^ 9 = Complex.I := by rw [pow_succ, h8]; ring
  rw [h2, h3, h4, h5, h6, h7, h8, h9]
  push_cast
  ring

/-- The Taylor polynomials of degree 8 and 9 approximate `cos` and `sin` on
`[-1, 1]` to within `|x|^10 * 11/36288000`. -/
theorem cos_sin_taylor (x : ℝ) (hx : |x| ≤ 1) :
    |Real.cos x - (1 - x ^ 2 / 2 + x ^ 4 / 24 - x ^ 6 / 720 + x ^ 8 / 40320)|
        ≤ |x| ^ 10 * (11 / 36288000) ∧
    |Real.sin x - (x - x ^ 3 / 6 + x ^ 5 / 120 - x ^ 7 / 5040 + x ^ 9 / 362880)|
        ≤ |x| ^ 10 * (11 / 36288000) := by
  have habs : Complex.abs ((x : ℂ) * Complex.I) = |x| := by simp
  have hb := Complex.exp_bound (x := (x : ℂ) * Complex.I) (by rw [habs]; exact hx)
    (n := 10) (by decide)
  rw [habs, taylor_sum_ten x] at hb
  have hc : (↑(10 : ℕ).succ : ℝ) * ((↑(Nat.factorial 10) : ℝ) * ((10 : ℕ) : ℝ))⁻¹
      = 11 / 36288000 := by
    norm_num [Nat.factorial]
  rw [hc] at hb
  have hre := le_trans (Complex.abs_re_le_abs _) hb
  have him := le_trans (Complex.abs_im_le_abs _) hb
  constructor
  · have e : (Complex.exp (↑x * Complex.I)
        - (((1 - x ^ 2 / 2 + x ^ 4 / 24 - x ^ 6 / 720 + x ^ 8 / 40320 : ℝ) : ℂ)
          + ((x - x ^ 3 / 6 + x ^ 5 / 120 - x ^ 7 / 5040 + x ^ 9 / 362880 : ℝ) : ℂ)
            * Complex.I)).re
        = Real.cos x - (1 - x ^ 2 / 2 + x ^ 4 / 24 - x ^ 6 / 720 + x ^ 8 / 40320) := by
      simp only [Complex.sub_re, Complex.exp_ofReal_mul_I_re, Complex.add_re, Complex.mul_re,
        Complex.ofReal_re, Complex.ofReal_im, Complex.I_re, Complex.I_im]
      ring
    rw [e] at hre
    exact hre
  · have e : (Complex.exp (↑x * Complex.I)
        - (((1 - x ^ 2 / 2 + x ^ 4 / 24 - x ^ 6 / 720 + x ^ 8 / 40320 : ℝ) : ℂ)
          + ((x - x ^ 3 / 6 + x ^ 5 / 120 - x ^ 7 / 5040 + x ^ 9 / 362880 : ℝ) : ℂ)
            * Complex.I)).im
        = Real.sin x - (x - x ^ 3 / 6 + x ^ 5 / 120 - x ^ 7 / 5040 + x ^ 9 / 362880) := by
      simp only [Complex.sub_im, Complex.exp_ofReal_mul_I_im, Complex.add_im, Complex.mul_im,
        Complex.ofReal_re, Complex.ofReal_im, Complex.I_re, Complex.I_im]
      ring
    rw [e] at him
    exact him

/-- `cos 1` to six decimals. -/
theorem cos_one_bounds : (0.540302 : ℝ) < Real.cos 1 ∧ Real.cos 1 < 0.540303 := by
  have h := (cos_sin_taylor 1 (by norm_num)).1
  rw [abs_le] at h
  obtain ⟨h1, h2⟩ := h
  norm_num at h1 h2
  constructor <;> norm_num <;> linarith

/-- `sin 1` to six decimals. -/
theorem sin_one_bounds : (0.841470 : ℝ) < Real.sin 1 ∧ Real.sin 1 < 0.841472 := by
  have h := (cos_sin_taylor 1 (by norm_num)).2
  rw [abs_le] at h
  obtain ⟨h1, h2⟩ := h
  norm_num at h1 h2
  constructor <;> norm_num <;> linarith

/-- `sin 0.6` to six decimals. -/
theorem sin_six_tenths_bounds :
    (0.564642 : ℝ) < Real.sin (3 / 5) ∧ Real.sin (3 / 5) < 0.564643 := by
  have h := (cos_sin_taylor (3 / 5) (by rw [abs_le]; constructor <;> norm_num)).2
  rw [abs_le] at h
  obtain ⟨h1, h2⟩ := h
  have habs : |(3 / 5 : ℝ)| = 3 / 5 := abs_of_pos (by norm_num)
  rw [habs] at h1 h2
  norm_num at h1 h2
  constructor <;> norm_num <;> linarith

end RealBounds

/-! ## The stepper: RK4 weighting and the two calling conventions -/

section StepperClaims

variable {K : Type} [Field K]

/-- C1: for every `n`, right-hand side `f`, `t`, `h` and state `y` of length
`n`, `rk4v` returns a `y_next` of length `n` with
`y_next[i] = y[i] + (k1[i] + 2*k2[i] + 2*k3[i] + k4[i]) / 6` for every `i < n`,
where `k1 = h*f(t, y)`, `k2 = h*f(t + h/2, y + k1/2)`,
`k3 = h*f(t + h/2, y + k2/2)` and `k4 = h*f(t + h, y + k3)`. -/
theorem rk4v_classical_weighting (n : Nat) (f : K → List K → List K) (t h : K)
    (y : List K) (hy : y.length = n)
    (hf : ∀ s z, z.length = n → (f s z).length = n) :
    (rk4v n f t h y).length = n ∧
    ∀ i, i < n → rd (rk4v n f t h y) i =
      rd y i + (rd (specK1 f t h y) i + 2 * rd (specK2 f t h y) i
        + 2 * rd (specK3 f t h y) i + rd (specK4 f t h y) i) / 6 :=
  rk4v_rd n f t h y hy hf

/-- C1 at the Lorenz system and its initial condition, over `ℚ`. -/
theorem rk4v_classical_weighting_witness :
    (Lorenz.y0 : List ℚ).length = 3 ∧
    (∀ (s : ℚ) (z : List ℚ), z.length = 3 → (Lorenz.f s z).length = 3) ∧
    ((rk4v 3 Lorenz.f 0 (1 / 50) (Lorenz.y0 : List ℚ)).length = 3 ∧
      ∀ i, i < 3 → rd (rk4v 3 Lorenz.f 0 (1 / 50) (Lorenz.y0 : List ℚ)) i =
        rd (Lorenz.y0 : List ℚ) i
          + (rd (specK1 Lorenz.f 0 (1 / 50) (Lorenz.y0 : List ℚ)) i
            + 2 * rd (specK2 Lorenz.f 0 (1 / 50) (Lorenz.y0 : List ℚ)) i
            + 2 * rd (specK3 Lorenz.f 0 (1 / 50) (Lorenz.y0 : List ℚ)) i
            + rd (specK4 Lorenz.f 0 (1 / 50) (Lorenz.y0 : List ℚ)) i) / 6) :=
  ⟨rfl, fun _ _ _ => rfl,
    rk4v_classical_weighting 3 Lorenz.f 0 (1 / 50) Lorenz.y0 rfl (fun _ _ _ => rfl)⟩

/-- C2: for every array `f` of `n` scalar functions and every vector function
`F` with `F(t, y)[i] = f[i](t, y)`, `rk4` on `f` and `rk4v` on `F` return the
same `y_next` for the same `t`, `h` and state `y` of length `n`. -/
theorem rk4_rk4v_same_step (n : Nat) (f : List (K → List K → K))
    (F : K → List K → List K) (t h : K) (y : List K)
    (hy : y.length = n) (hf : f.length = n)
    (hlen : ∀ s z, (F s z).length = n)
    (hF : ∀ s z i, i < n → rd (F s z) i = f.getD i (fun _ _ => 0) s z) :
    rk4 n f t h y = rk4v n F t h y := by
  have hFv : F = vectorOf f := by
    funext s z
    apply ext_rd
    · rw [hlen, length_vectorOf, hf]
    · intro j hj
      rw [hlen] at hj
      rw [hF s z j hj, rd_vectorOf f s z j (hf.symm ▸ hj)]
  rw [hFv]
  exact rk4_eq_rk4v_vectorOf n f t h y hy hf

/-- C2 at the Rössler system written both ways, over `ℚ`. -/
theorem rk4_rk4v_same_step_witness :
    ([1 / 10, 1 / 10, 1 / 10] : List ℚ).length = 3 ∧
    ([fun _ y => -(rd y 1 + rd y 2), fun _ y => rd y 0 + Rossler.a * rd y 1,
      fun _ y => Rossler.b + rd y 2 * (rd y 0 - Rossler.c)] :
        List (ℚ → List ℚ → ℚ)).length = 3 ∧
    rk4 3 [fun _ y => -(rd y 1 + rd y 2), fun _ y => rd y 0 + Rossler.a * rd y 1,
      fun _ y => Rossler.b + rd y 2 * (rd y 0 - Rossler.c)] 0 (1 / 100)
        ([1 / 10, 1 / 10, 1 / 10] : List ℚ)
      = rk4v 3 Rossler.f 0 (1 / 100) [1 / 10, 1 / 10, 1 / 10] :=
  ⟨rfl, rfl,
    rk4_rk4v_same_step 3 _ Rossler.f 0 (1 / 100) _ rfl rfl (fun _ _ => rfl)
      (fun s z i hi => by
        have h3 : i = 0 ∨ i = 1 ∨ i = 2 := by omega
        rcases h3 with h0 | h0 | h0 <;> subst h0 <;> rfl)⟩

end StepperClaims

/-! ## The bounding box of a run -/

section BoxClaims

variable {K : Type} [LinearOrderedField K]

/-- A segment-drawing driver over all `N` components ends every run with the
reference reductions in its box. -/
theorem traceLoop_segment_ref (N : Nat) (next : Nat → List K → List K) (y0 : List K)
    (hN : 2 ≤ N) (hy : y0.length = N)
    (hnext : ∀ i y, y.length = N → (next i y).length = N) (k : Nat) :
    ∃ s, traceLoop N N N y0 next drawSegment k = some s ∧
      s.y = stateAt next y0 k ∧
      s.path = segmentPath next y0 k ∧
      ∀ j, j < N →
        rd s.min j = refMin j y0 (nextStates next y0 k) ∧
        rd s.max j = refMax j y0 (nextStates next y0 k) := by
  obtain ⟨mn, mx, hb, ht⟩ := traceLoop_segment N next y0 hN hy hnext k
  obtain ⟨mn0, mx0, hb0, -, -, -, hmin, hmax⟩ :=
    boundsAfter_ref N y0 (nextStates next y0 k) hy (nextStates_length N next y0 hy hnext k)
  rw [hb] at hb0
  obtain ⟨rfl, rfl⟩ := Prod.mk.inj (Option.some.inj hb0)
  exact ⟨_, ht, rfl, rfl, fun j hj => ⟨hmin j hj, hmax j hj⟩⟩

/-- The Peter de Jong loop fails in its first iteration, at `j = 2` of the
bounding box update. -/
theorem PeterDeJong.main_succ (sin cos : K → K) (k : Nat) :
    PeterDeJong.main sin cos (k + 1) = none := by
  unfold PeterDeJong.main PeterDeJong.N
  rw [traceLoop, initBounds_full 2 PeterDeJong.y0 rfl]
  simp only [Option.some_bind]
  induction k with
  | zero =>
    simp only [forLoopChk, Option.some_bind, traceStep]
    rw [updateBounds_out_of_range 3 _ PeterDeJong.y0 PeterDeJong.y0
      (show (PeterDeJong.y0 : List K).length < 3 from Nat.lt_succ_self 2)]
    rfl
  | succ k ih =>
    rw [forLoopChk, ih]
    rfl

/-- C3: for every initial state of length `N` and every sequence of next
states of length `N` fed to the bounding-box code (initialisation from the
initial state, then the coded update once per next state), the resulting
`min`, `max` satisfy `min[j] <= s[j] <= max[j]` for the initial state and
every next state `s`, and every component `j < N`. -/
theorem box_contains_every_state (N : Nat) (y0 : List K) (nexts : List (List K))
    (hy : y0.length = N) (hn : ∀ s ∈ nexts, s.length = N) :
    ∃ mn mx, boundsAfter N N y0 nexts = some (mn, mx) ∧
      ∀ s ∈ y0 :: nexts, ∀ j, j < N → rd mn j ≤ rd s j ∧ rd s j ≤ rd mx j := by
  obtain ⟨mn, mx, hb, -, -, -, hmin, hmax⟩ := boundsAfter_ref N y0 nexts hy hn
  refine ⟨mn, mx, hb, ?_⟩
  intro s hs j hj
  rw [hmin j hj, hmax j hj]
  obtain ⟨m1, m2⟩ := foldl_min_le (fun s => rd s j) nexts (rd y0 j)
  obtain ⟨M1, M2⟩ := le_foldl_max (fun s => rd s j) nexts (rd y0 j)
  rcases List.mem_cons.mp hs with e | e
  · subst e; exact ⟨m1, M1⟩
  · exact ⟨m2 s e, M2 s e⟩

/-- C3 on a two-component run over `ℚ` whose second next state falls below
the first. -/
theorem box_contains_every_state_witness :
    ([1, 2] : List ℚ).length = 2 ∧
    (∀ s ∈ ([[3, 0], [-1, 5]] : List (List ℚ)), s.length = 2) ∧
    ∃ mn mx, boundsAfter 2 2 ([1, 2] : List ℚ) [[3, 0], [-1, 5]] = some (mn, mx) ∧
      ∀ s ∈ ([1, 2] : List ℚ) :: [[3, 0], [-1, 5]], ∀ j, j < 2 →
        rd mn j ≤ rd s j ∧ rd s j ≤ rd mx j :=
  ⟨rfl, by simp,
    box_contains_every_state 2 [1, 2] [[3, 0], [-1, 5]] rfl (by simp)⟩

/-- C4, amended: for the Duffing, Lorenz and Rössler drivers and every number
`k` of iterations, the run ends with a box whose `min[j]` and `max[j]` are the
minimum and the maximum of component `j` over the initial state and every
`y_next`, and these are the states handed to the drawing calls (the path
joins each position to the next). -/
theorem ode_drivers_box_is_extrema (cos : K → K) (k : Nat) :
    (∃ s, Duffing.main cos k = some s ∧
      s.path = segmentPath (Duffing.next cos) Duffing.y0 k ∧
      ∀ j, j < 2 →
        rd s.min j = refMin j Duffing.y0 (nextStates (Duffing.next cos) Duffing.y0 k) ∧
        rd s.max j = refMax j Duffing.y0 (nextStates (Duffing.next cos) Duffing.y0 k)) ∧
    (∃ s, (Lorenz.main k : Option (Trace K)) = some s ∧
      s.path = segmentPath Lorenz.next Lorenz.y0 k ∧
      ∀ j, j < 3 →
        rd s.min j = refMin j Lorenz.y0 (nextStates Lorenz.next Lorenz.y0 k) ∧
        rd s.max j = refMax j Lorenz.y0 (nextStates Lorenz.next Lorenz.y0 k)) ∧
    (∃ s, (Rossler.main k : Option (Trace K)) = some s ∧
      s.path = segmentPath Rossler.next Rossler.y0 k ∧
      ∀ j, j < 3 →
        rd s.min j = refMin j Rossler.y0 (nextStates Rossler.next Rossler.y0 k) ∧
        rd s.max j = refMax j Rossler.y0 (nextStates Rossler.next Rossler.y0 k)) := by
  refine ⟨?_, ?_, ?_⟩
  · obtain ⟨s, h1, -, h3, h4⟩ :=
      traceLoop_segment_ref 2 (Duffing.next cos) Duffing.y0 le_rfl rfl
        (fun i y hy => (rk4v_rd 2 (Duffing.f cos) _ _ y hy (fun _ _ _ => rfl)).1) k
    exact ⟨s, h1, h3, h4⟩
  · obtain ⟨s, h1, -, h3, h4⟩ :=
      traceLoop_segment_ref 3 (Lorenz.next : Nat → List K → List K) Lorenz.y0 (by decide) rfl
        (fun i y hy => (rk4v_rd 3 Lorenz.f _ _ y hy (fun _ _ _ => rfl)).1) k
    exact ⟨s, h1, h3, h4⟩
  · obtain ⟨s, h1, -, h3, h4⟩ :=
      traceLoop_segment_ref 3 (Rossler.next : Nat → List K → List K) Rossler.y0 (by decide) rfl
        (fun i y hy => (rk4v_rd 3 Rossler.f _ _ y hy (fun _ _ _ => rfl)).1) k
    exact ⟨s, h1, h3, h4⟩

/-- C5: in every state the bounding-box code reaches (initialised from an
initial state, then updated by the coded rule on any next states), the coded
update with a next state `v` leaves `min[j] = min(min[j], v[j])` and
`max[j] = max(max[j], v[j])` for every component `j < N`. -/
theorem coded_update_is_min_max (N : Nat) (y0 : List K) (nexts : List (List K))
    (v : List K) (hy : y0.length = N) (hn : ∀ s ∈ nexts, s.length = N)
    (hv : v.length = N) :
    ∃ mn mx mn1 mx1, boundsAfter N N y0 nexts = some (mn, mx) ∧
      updateBounds N v mn mx = some (mn1, mx1) ∧
      ∀ j, j < N →
        rd mn1 j = min (rd mn j) (rd v j) ∧ rd mx1 j = max (rd mx j) (rd v j) := by
  obtain ⟨mn, mx, hb, hl1, hl2, hle, -, -⟩ := boundsAfter_ref N y0 nexts hy hn
  obtain ⟨mn1, mx1, he, -, -, h1, h2⟩ := updateBounds_min_max N v mn mx hv hl1 hl2 hle
  exact ⟨mn, mx, mn1, mx1, hb, he, fun j hj => ⟨h1 j hj, h2 j hj⟩⟩

/-- C5 on a reached state over `ℚ` and a next state that lowers one bound
and raises another. -/
theorem coded_update_is_min_max_witness :
    ([1, 2] : List ℚ).length = 2 ∧
    (∀ s ∈ ([[3, 0]] : List (List ℚ)), s.length = 2) ∧
    ([-1, 5] : List ℚ).length = 2 ∧
    ∃ mn mx mn1 mx1, boundsAfter 2 2 ([1, 2] : List ℚ) [[3, 0]] = some (mn, mx) ∧
      updateBounds 2 [-1, 5] mn mx = some (mn1, mx1) ∧
      ∀ j, j < 2 →
        rd mn1 j = min (rd mn j) (rd ([-1, 5] : List ℚ) j) ∧
        rd mx1 j = max (rd mx j) (rd ([-1, 5] : List ℚ) j) :=
  ⟨rfl, by simp, rfl,
    coded_update_is_min_max 2 [1, 2] [[3, 0]] [-1, 5] rfl (by simp) rfl⟩

end BoxClaims

/-! ## Concrete scenarios and the viewport transform -/

section ScenarioClaims

/-- One `rk4v` step of the Lorenz system from its initial condition, exactly. -/
theorem Lorenz.next_zero :
    (Lorenz.next 0 Lorenz.y0 : List ℚ)
      = [472750776640237 / 4500000000000000,
         9368339562319233344688271 / 60750000000000000000000000,
         5774824728966247094468831 / 60750000000000000000000000] := by
  have hlen := (rk4v_rd 3 Lorenz.f (((0 : ℕ) : ℚ) * Lorenz.h) Lorenz.h (Lorenz.y0 : List ℚ) rfl
    (fun _ _ _ => rfl)).1
  have hrd := (rk4v_rd 3 Lorenz.f (((0 : ℕ) : ℚ) * Lorenz.h) Lorenz.h (Lorenz.y0 : List ℚ) rfl
    (fun _ _ _ => rfl)).2
  apply ext_rd
  · exact hlen
  · intro j hj
    have hj3 : j < 3 := by
      have : (Lorenz.next 0 Lorenz.y0 : List ℚ).length = 3 := hlen
      omega
    have h3 : j = 0 ∨ j = 1 ∨ j = 2 := by omega
    rcases h3 with h0 | h0 | h0 <;> subst h0
    · rw [show (Lorenz.next 0 Lorenz.y0 : List ℚ)
          = rk4v 3 Lorenz.f (((0 : ℕ) : ℚ) * Lorenz.h) Lorenz.h Lorenz.y0 from rfl, hrd 0 (by decide)]
      simp [specK1, specK2, specK3, specK4, vscale, vadd, vhalf, Lorenz.f, rd, Lorenz.y0,
        Lorenz.h, Lorenz.a, Lorenz.b, Lorenz.c]
      norm_num
    · rw [show (Lorenz.next 0 Lorenz.y0 : List ℚ)
          = rk4v 3 Lorenz.f (((0 : ℕ) : ℚ) * Lorenz.h) Lorenz.h Lorenz.y0 from rfl, hrd 1 (by decide)]
      simp [specK1, specK2, specK3, specK4, vscale, vadd, vhalf, Lorenz.f, rd, Lorenz.y0,
        Lorenz.h, Lorenz.a, Lorenz.b, Lorenz.c]
      norm_num
    · rw [show (Lorenz.next 0 Lorenz.y0 : List ℚ)
          = rk4v 3 Lorenz.f (((0 : ℕ) : ℚ) * Lorenz.h) Lorenz.h Lorenz.y0 from rfl, hrd 2 (by decide)]
      simp [specK1, specK2, specK3, specK4, vscale, vadd, vhalf, Lorenz.f, rd, Lorenz.y0,
        Lorenz.h, Lorenz.a, Lorenz.b, Lorenz.c]
      norm_num

/-- C9: one `rk4v` step of the Lorenz right-hand side (`a = 10`, `b = 28`,
`c = 8/3`) from `(0.1, 0.1, 0.1)` at `t = 0` with `h = 0.02`, in exact rational
arithmetic, gives `next[0]` within `0.01` of `0.1`, `next[1] = 0.1` plus a
strictly positive delta, and `next[2] = 0.1` minus a strictly positive delta
smaller than the delta of `next[1]`. -/
theorem lorenz_first_step_shape :
    (Lorenz.a : ℚ) = 10 ∧ (Lorenz.b : ℚ) = 28 ∧ (Lorenz.c : ℚ) = 8 / 3 ∧
    (Lorenz.h : ℚ) = 1 / 50 ∧ (Lorenz.y0 : List ℚ) = [1 / 10, 1 / 10, 1 / 10] ∧
    |rd (rk4v 3 Lorenz.f 0 (1 / 50) ([1 / 10, 1 / 10, 1 / 10] : List ℚ)) 0 - 1 / 10| < 1 / 100 ∧
    0 < rd (rk4v 3 Lorenz.f 0 (1 / 50) ([1 / 10, 1 / 10, 1 / 10] : List ℚ)) 1 - 1 / 10 ∧
    0 < 1 / 10 - rd (rk4v 3 Lorenz.f 0 (1 / 50) ([1 / 10, 1 / 10, 1 / 10] : List ℚ)) 2 ∧
    1 / 10 - rd (rk4v 3 Lorenz.f 0 (1 / 50) ([1 / 10, 1 / 10, 1 / 10] : List ℚ)) 2
      < rd (rk4v 3 Lorenz.f 0 (1 / 50) ([1 / 10, 1 / 10, 1 / 10] : List ℚ)) 1 - 1 / 10 := by
  have hy : (Lorenz.y0 : List ℚ) = [1 / 10, 1 / 10, 1 / 10] := by
    simp only [Lorenz.y0]; norm_num
  have hh : (Lorenz.h : ℚ) = 1 / 50 := by simp only [Lorenz.h]; norm_num
  have hstep : rk4v 3 Lorenz.f 0 (1 / 50) ([1 / 10, 1 / 10, 1 / 10] : List ℚ)
      = Lorenz.next 0 Lorenz.y0 := by
    rw [Lorenz.next, Lorenz.N, hy, hh]; norm_num
  rw [hstep, Lorenz.next_zero]
  refine ⟨rfl, rfl, rfl, hh, hy, ?_, ?_, ?_, ?_⟩
  · simp only [rd, List.getD_cons_zero]; rw [abs_lt]; constructor <;> norm_num
  · simp only [rd, List.getD_cons_succ, List.getD_cons_zero]; norm_num
  · simp only [rd, List.getD_cons_succ, List.getD_cons_zero]; norm_num
  · simp only [rd, List.getD_cons_succ, List.getD_cons_zero]; norm_num

/-- C10: for every real `t` and state `(y0, y1)`, the Duffing right-hand side
returns `dy0 = y1` and `dy1 = y0*(1 - y0^2) - a*y1 + b*cos(w*t)` with
`a = 1/4`, `b = 3/10`, `w = 1`, and `dy1` equals the equation of the header
comment, `y0 - y0^3 - a*y1 + b*cos(w*t)`. -/
theorem duffing_rhs_matches_header (t y0 y1 : ℝ) :
    Duffing.f Real.cos t [y0, y1]
      = [y1, y0 * (1 - y0 ^ 2) - 1 / 4 * y1 + 3 / 10 * Real.cos (1 * t)] ∧
    rd (Duffing.f Real.cos t [y0, y1]) 1 = Duffing.headerDy1 Real.cos t y0 y1 := by
  constructor
  · have ha : (Duffing.a : ℝ) = 1 / 4 := by simp only [Duffing.a]; norm_num
    have hb : (Duffing.b : ℝ) = 3 / 10 := by simp only [Duffing.b]; norm_num
    have hw : (Duffing.w : ℝ) = 1 := by simp only [Duffing.w]; norm_num
    have h1 : (1.0 : ℝ) = 1 := by norm_num
    simp only [Duffing.f, ha, hb, hw, h1, rd, List.getD_cons_succ, List.getD_cons_zero, pow_two]
  · simp only [Duffing.f, Duffing.headerDy1, rd, List.getD_cons_succ, List.getD_cons_zero]
    ring

/-- The two calls compose as Cairo composes them: a drawn point `(x, y)` lands
on device `((x + tx) * sx, (y + ty) * sy)`. -/
theorem user_to_device_viewportCtm {K : Type} [Field K]
    (kWidth kHeight kXLeft kXRight kYBottom kYTop tx ty x y : K) :
    user_to_device (viewportCtm kWidth kHeight kXLeft kXRight kYBottom kYTop tx ty) x y
      = ((x + tx) * (kWidth / (kXRight - kXLeft)), (y + ty) * (kHeight / (kYBottom - kYTop))) := by
  simp only [user_to_device, viewportCtm, cairo_translate, cairo_scale, Ctm.identity, Prod.mk.injEq]
  constructor <;> ring

/-- C7, as stated, fails: in the Duffing driver the translate target
`(kXRight, kYBottom)` lands on device `(1350, 900) = (kWidth, kHeight)`, not on
`(0, 0)`. -/
theorem duffing_translate_target_not_origin :
    user_to_device (Duffing.ctm : Ctm ℝ) Duffing.kXRight Duffing.kYBottom = (1350, 900) ∧
    user_to_device (Duffing.ctm : Ctm ℝ) Duffing.kXRight Duffing.kYBottom ≠ (0, 0) := by
  have h : user_to_device (Duffing.ctm : Ctm ℝ) Duffing.kXRight Duffing.kYBottom = (1350, 900) := by
    rw [Duffing.ctm, user_to_device_viewportCtm]
    simp only [Duffing.kWidth, Duffing.kHeight, Duffing.kXLeft, Duffing.kXRight,
      Duffing.kYBottom, Duffing.kYTop, Prod.mk.injEq]
    constructor <;> norm_num
  refine ⟨h, ?_⟩
  rw [h]
  intro e
  have := (Prod.mk.inj e).1
  norm_num at this

/-- C7, amended: in each driver the world point opposite to the translate
target, `(-tx, -ty)`, which is the viewport corner `(kXLeft, kYTop)` in all
four, lands on device `(0, 0)`, and the viewport corner `(kXRight, kYBottom)`
(the translate target itself in Duffing, Lorenz and Peter de Jong) lands on
`(kWidth, kHeight)`. -/
theorem viewport_corners_on_device :
    (((Duffing.kXLeft : ℝ), (Duffing.kYTop : ℝ)) = (-Duffing.kXRight, -Duffing.kYBottom) ∧
      user_to_device (Duffing.ctm : Ctm ℝ) Duffing.kXLeft Duffing.kYTop = (0, 0) ∧
      user_to_device (Duffing.ctm : Ctm ℝ) Duffing.kXRight Duffing.kYBottom
        = (Duffing.kWidth, Duffing.kHeight)) ∧
    (((Lorenz.kXLeft : ℝ), (Lorenz.kYTop : ℝ)) = (-Lorenz.kXRight, -Lorenz.kYBottom) ∧
      user_to_device (Lorenz.ctm : Ctm ℝ) Lorenz.kXLeft Lorenz.kYTop = (0, 0) ∧
      user_to_device (Lorenz.ctm : Ctm ℝ) Lorenz.kXRight Lorenz.kYBottom
        = (Lorenz.kWidth, Lorenz.kHeight)) ∧
    (((Rossler.kXLeft : ℝ), (Rossler.kYTop : ℝ))
        = (-Rossler.kTranslateX, -Rossler.kTranslateY) ∧
      user_to_device (Rossler.ctm : Ctm ℝ) Rossler.kXLeft Rossler.kYTop = (0, 0) ∧
      user_to_device (Rossler.ctm : Ctm ℝ) Rossler.kXRight Rossler.kYBottom
        = (Rossler.kWidth, Rossler.kHeight)) ∧
    (((PeterDeJong.kXLeft : ℝ), (PeterDeJong.kYTop : ℝ))
        = (-PeterDeJong.kXRight, -PeterDeJong.kYBottom) ∧
      user_to_device (PeterDeJong.ctm : Ctm ℝ) PeterDeJong.kXLeft PeterDeJong.kYTop = (0, 0) ∧
      user_to_device (PeterDeJong.ctm : Ctm ℝ) PeterDeJong.kXRight PeterDeJong.kYBottom
        = (PeterDeJong.kWidth, PeterDeJong.kHeight)) := by
  refine ⟨⟨?_, ?_, ?_⟩, ⟨?_, ?_, ?_⟩, ⟨?_, ?_, ?_⟩, ⟨?_, ?_, ?_⟩⟩
  · simp only [Duffing.kXLeft, Duffing.kXRight, Duffing.kYBottom, Duffing.kYTop, Prod.mk.injEq]
    constructor <;> norm_num
  · rw [Duffing.ctm, user_to_device_viewportCtm]
    simp only [Duffing.kWidth, Duffing.kHeight, Duffing.kXLeft, Duffing.kXRight,
      Duffing.kYBottom, Duffing.kYTop, Prod.mk.injEq]
    constructor <;> norm_num
  · rw [Duffing.ctm, user_to_device_viewportCtm]
    simp only [Duffing.kWidth, Duffing.kHeight, Duffing.kXLeft, Duffing.kXRight,
      Duffing.kYBottom, Duffing.kYTop, Prod.mk.injEq]
    constructor <;> norm_num
  · simp only [Lorenz.kXLeft, Lorenz.kXRight, Lorenz.kYBottom, Lorenz.kYTop, Prod.mk.injEq]
    constructor <;> norm_num
  · rw [Lorenz.ctm, user_to_device_viewportCtm]
    simp only [Lorenz.kWidth, Lorenz.kHeight, Lorenz.kXLeft, Lorenz.kXRight,
      Lorenz.kYBottom, Lorenz.kYTop, Prod.mk.injEq]
    constructor <;> norm_num
  · rw [Lorenz.ctm, user_to_device_viewportCtm]
    simp only [Lorenz.kWidth, Lorenz.kHeight, Lorenz.kXLeft, Lorenz.kXRight,
      Lorenz.kYBottom, Lorenz.kYTop, Prod.mk.injEq]
    constructor <;> norm_num
  · simp only [Rossler.kXLeft, Rossler.kYTop, Rossler.kTranslateX, Rossler.kTranslateY,
      Prod.mk.injEq]
    constructor <;> norm_num
  · rw [Rossler.ctm, user_to_device_viewportCtm]
    simp only [Rossler.kWidth, Rossler.kHeight, Rossler.kXLeft, Rossler.kXRight,
      Rossler.kYBottom, Rossler.kYTop, Rossler.kTranslateX, Rossler.kTranslateY, Prod.mk.injEq]
    constructor <;> norm_num
  · rw [Rossler.ctm, user_to_device_viewportCtm]
    simp only [Rossler.kWidth, Rossler.kHeight, Rossler.kXLeft, Rossler.kXRight,
      Rossler.kYBottom, Rossler.kYTop, Rossler.kTranslateX, Rossler.kTranslateY, Prod.mk.injEq]
    constructor <;> norm_num
  · simp only [PeterDeJong.kXLeft, PeterDeJong.kXRight, PeterDeJong.kYBottom,
      PeterDeJong.kYTop, Prod.mk.injEq]
    constructor <;> norm_num
  · rw [PeterDeJong.ctm, user_to_device_viewportCtm]
    simp only [PeterDeJong.kWidth, PeterDeJong.kHeight, PeterDeJong.kXLeft, PeterDeJong.kXRight,
      PeterDeJong.kYBottom, PeterDeJong.kYTop, Prod.mk.injEq]
    constructor <;> norm_num
  · rw [PeterDeJong.ctm, user_to_device_viewportCtm]
    simp only [PeterDeJong.kWidth, PeterDeJong.kHeight, PeterDeJong.kXLeft, PeterDeJong.kXRight,
      PeterDeJong.kYBottom, PeterDeJong.kYTop, Prod.mk.injEq]
    constructor <;> norm_num

/-- The Peter de Jong map at the initial condition, with the arguments of
`sin` and `cos` evaluated. -/
theorem PeterDeJong.f_y0 :
    PeterDeJong.f Real.sin Real.cos (PeterDeJong.y0 : List ℝ)
      = [Real.sin (-1) - Real.cos (-1), Real.sin (-0.6) - Real.cos 1] := by
  have e1 : (PeterDeJong.a : ℝ) * 0.5 = -1 := by simp only [PeterDeJong.a]; norm_num
  have e2 : (PeterDeJong.b : ℝ) * 0.5 = -1 := by simp only [PeterDeJong.b]; norm_num
  have e3 : (PeterDeJong.c : ℝ) * 0.5 = -0.6 := by simp only [PeterDeJong.c]; norm_num
  have e4 : (PeterDeJong.d : ℝ) * 0.5 = 1 := by simp only [PeterDeJong.d]; norm_num
  simp only [PeterDeJong.f, PeterDeJong.y0, rd, List.getD_cons_succ, List.getD_cons_zero,
    e1, e2, e3, e4]

/-- C8, as stated, fails: the second component of the map at `(0.5, 0.5)` is
more than `5e-5` away from `-1.1050`. -/
theorem peterdejong_second_figure_off :
    ¬ |rd (PeterDeJong.f Real.sin Real.cos (PeterDeJong.y0 : List ℝ)) 1 - (-1.1050)|
        ≤ 0.00005 := by
  rw [PeterDeJong.f_y0]
  simp only [rd, List.getD_cons_succ, List.getD_cons_zero]
  rw [show (-0.6 : ℝ) = -(3 / 5) by norm_num, Real.sin_neg]
  obtain ⟨-, hs⟩ := sin_six_tenths_bounds
  obtain ⟨-, hc⟩ := cos_one_bounds
  intro h
  rw [abs_le] at h
  obtain ⟨-, h2⟩ := h
  norm_num at hs hc h2
  linarith

/-- C8, amended: the Peter de Jong map with `a = -2`, `b = -2`, `c = -1.2`,
`d = 2` at `(0.5, 0.5)` over the reals returns exactly
`(sin(-1) - cos(-1), sin(-0.6) - cos(1))`, and these two values are within
`5e-5` of `-1.3818` and `-1.1049`. -/
theorem peterdejong_first_iterate :
    (PeterDeJong.a : ℝ) = -2 ∧ (PeterDeJong.b : ℝ) = -2 ∧ (PeterDeJong.c : ℝ) = -1.2 ∧
    (PeterDeJong.d : ℝ) = 2 ∧ (PeterDeJong.y0 : List ℝ) = [0.5, 0.5] ∧
    PeterDeJong.f Real.sin Real.cos (PeterDeJong.y0 : List ℝ)
      = [Real.sin (-1) - Real.cos (-1), Real.sin (-0.6) - Real.cos 1] ∧
    |rd (PeterDeJong.f Real.sin Real.cos (PeterDeJong.y0 : List ℝ)) 0 - (-1.3818)|
      ≤ 0.00005 ∧
    |rd (PeterDeJong.f Real.sin Real.cos (PeterDeJong.y0 : List ℝ)) 1 - (-1.1049)|
      ≤ 0.00005 := by
  refine ⟨rfl, rfl, rfl, rfl, rfl, PeterDeJong.f_y0, ?_, ?_⟩
  · rw [PeterDeJong.f_y0]
    simp only [rd, List.getD_cons_zero]
    rw [Real.sin_neg, Real.cos_neg]
    obtain ⟨hs1, hs2⟩ := sin_one_bounds
    obtain ⟨hc1, hc2⟩ := cos_one_bounds
    norm_num at hs1 hs2 hc1 hc2
    rw [abs_le]
    constructor <;> norm_num <;> linarith
  · rw [PeterDeJong.f_y0]
    simp only [rd, List.getD_cons_succ, List.getD_cons_zero]
    rw [show (-0.6 : ℝ) = -(3 / 5) by norm_num, Real.sin_neg]
    obtain ⟨hs1, hs2⟩ := sin_six_tenths_bounds
    obtain ⟨hc1, hc2⟩ := cos_one_bounds
    norm_num at hs1 hs2 hc1 hc2
    rw [abs_le]
    constructor <;> norm_num <;> linarith

end ScenarioClaims

/-! ## Exactness on exponential growth -/

section GrowthClaims

/-- One RK4 step of `y' = y` multiplies the state by the degree-4 Taylor
polynomial of `exp` at `h`. -/
theorem rk4v_growth (t h y : ℝ) :
    rk4v 1 growth t h [y] = [y * (1 + h + h ^ 2 / 2 + h ^ 3 / 6 + h ^ 4 / 24)] := by
  obtain ⟨hlen, hrd⟩ := rk4v_rd 1 growth t h [y] rfl (fun _ _ _ => rfl)
  apply ext_rd
  · rw [hlen]; rfl
  · intro j hj
    rw [hlen] at hj
    have h0 : j = 0 := by omega
    subst h0
    rw [hrd 0 (by decide)]
    simp only [specK1, specK2, specK3, specK4, vscale, vadd, vhalf, growth, rd,
      List.getD_cons_zero, List.map_cons, List.map_nil, List.zipWith_cons_cons,
      List.zipWith_nil_right]
    ring

theorem rk4_growth (t h y : ℝ) :
    rk4 1 growthFns t h [y] = [y * (1 + h + h ^ 2 / 2 + h ^ 3 / 6 + h ^ 4 / 24)] := by
  rw [rk4_eq_rk4v_vectorOf 1 growthFns t h [y] rfl rfl,
    show vectorOf (growthFns : List (ℝ → List ℝ → ℝ)) = growth from rfl, rk4v_growth]

theorem rk4vSteps_growth (h : ℝ) (k : Nat) :
    rk4vSteps 1 growth h [1] k = [(1 + h + h ^ 2 / 2 + h ^ 3 / 6 + h ^ 4 / 24) ^ k] := by
  induction k with
  | zero => simp [rk4vSteps, stateAt]
  | succ k ih =>
    rw [rk4vSteps] at ih
    rw [rk4vSteps, stateAt, ih, rk4v_growth, ← pow_succ]

theorem rk4Steps_growth (h : ℝ) (k : Nat) :
    rk4Steps 1 growthFns h [1] k = [(1 + h + h ^ 2 / 2 + h ^ 3 / 6 + h ^ 4 / 24) ^ k] := by
  induction k with
  | zero => simp [rk4Steps, stateAt]
  | succ k ih =>
    rw [rk4Steps] at ih
    rw [rk4Steps, stateAt, ih, rk4_growth, ← pow_succ]

/-- A hundred factors of the degree-4 Taylor polynomial at `1/100` against `e`. -/
theorem taylor_pow_hundred :
    |(1 + (1 / 100 : ℝ) + (1 / 100) ^ 2 / 2 + (1 / 100) ^ 3 / 6 + (1 / 100) ^ 4 / 24) ^ 100
        - Real.exp 1| ≤ 1 / 100000000 * Real.exp 1 := by
  have hE : Real.exp 1 = Real.exp (1 / 100) ^ 100 := by
    rw [← Real.exp_nat_mul]; norm_num
  have hlow := Real.sum_le_exp_of_nonneg (x := (1 / 100 : ℝ)) (by norm_num) 5
  have hup := Real.exp_bound' (x := (1 / 100 : ℝ)) (by norm_num) (by norm_num) (n := 5)
    (by decide)
  simp only [Finset.sum_range_succ, Finset.range_zero, Finset.sum_empty, Nat.factorial] at hlow hup
  norm_num at hlow hup
  have hp : (1 + (1 / 100 : ℝ) + (1 / 100) ^ 2 / 2 + (1 / 100) ^ 3 / 6 + (1 / 100) ^ 4 / 24)
      = 2424120401 / 2400000000 := by norm_num
  rw [hp, hE]
  have hE1 : (1 : ℝ) ≤ Real.exp (1 / 100) := Real.one_le_exp (by norm_num)
  have hE0 : (0 : ℝ) < Real.exp (1 / 100) := Real.exp_pos _
  have hpE : (2424120401 / 2400000000 : ℝ) ≤ Real.exp (1 / 100) := by linarith
  have hpow : (2424120401 / 2400000000 : ℝ) ^ 100 ≤ Real.exp (1 / 100) ^ 100 :=
    pow_le_pow_left₀ (by norm_num) hpE 100
  have hlo : Real.exp (1 / 100) * (1 - 1 / 1000000000000) ≤ (2424120401 / 2400000000 : ℝ) := by
    nlinarith
  have hpow2 : (Real.exp (1 / 100) * (1 - 1 / 1000000000000)) ^ 100
      ≤ (2424120401 / 2400000000 : ℝ) ^ 100 :=
    pow_le_pow_left₀ (by positivity) hlo 100
  have hbern : (1 : ℝ) + (100 : ℕ) * (-(1 / 1000000000000))
      ≤ (1 + -(1 / 1000000000000)) ^ 100 :=
    one_add_mul_le_pow (by norm_num) 100
  have hEpos : (0 : ℝ) < Real.exp (1 / 100) ^ 100 := by positivity
  rw [mul_pow] at hpow2
  rw [abs_le]
  constructor
  · have : Real.exp (1 / 100) ^ 100 * (1 - 1 / 10000000000)
        ≤ Real.exp (1 / 100) ^ 100 * (1 - 1 / 1000000000000) ^ 100 := by
      apply mul_le_mul_of_nonneg_left _ hEpos.le
      have e : (1 : ℝ) - 1 / 1000000000000 = 1 + -(1 / 1000000000000) := by ring
      rw [e]
      refine le_trans ?_ hbern
      norm_num
    nlinarith
  · nlinarith

/-- C6: with `n = 1`, `rhs(t, y) = y`, `h = 1/100` and `y(0) = 1`, in exact
real arithmetic, the value after 100 successive RK4 steps (step `i` taken at
time `i*h`), by `rk4v` and by `rk4`, is within `1e-8 * e` of `e`. -/
theorem growth_hundred_steps_near_e :
    |rd (rk4vSteps 1 growth (1 / 100 : ℝ) [1] 100) 0 - Real.exp 1|
      ≤ 1 / 100000000 * Real.exp 1 ∧
    |rd (rk4Steps 1 growthFns (1 / 100 : ℝ) [1] 100) 0 - Real.exp 1|
      ≤ 1 / 100000000 * Real.exp 1 := by
  rw [rk4vSteps_growth, rk4Steps_growth]
  simp only [rd, List.getD_cons_zero]
  exact ⟨taylor_pow_hundred, taylor_pow_hundred⟩

end GrowthClaims

/-! ## The Peter de Jong driver and the emitted extrema -/

section StampClaims

theorem drawStamp_eq {K : Type} [LinearOrderedField K] (y yn : List K) (hyn : 2 ≤ yn.length) :
    drawStamp y yn
      = some [Draw.move_to (rd yn 0) (rd yn 1),
              Draw.line_to (rd yn 0 + 0.001) (rd yn 1 + 0.001)] := by
  simp only [drawStamp, getElem?_eq_some_rd yn 0 (by omega),
    getElem?_eq_some_rd yn 1 (by omega), Option.some_bind]

/-- C4, as stated, fails for Peter de Jong.  The driver as written has no
final box after one iteration (the update at `j = 2` is out of range); and
with the update held to the `N = 2` components, after one iteration `max[0]`
is still the `0.5` of the initial state, which is never drawn, while the only
state handed to the drawing calls has first component
`sin(-1) - cos(-1) < 0.5`. -/
theorem peterdejong_box_not_emitted_extrema :
    (PeterDeJong.main Real.sin Real.cos 1 : Option (Trace ℝ)) = none ∧
    ∃ s, traceLoop 2 2 2 (PeterDeJong.y0 : List ℝ) (PeterDeJong.next Real.sin Real.cos)
          drawStamp 1 = some s ∧
      s.path = [Draw.move_to (Real.sin (-1) - Real.cos (-1)) (Real.sin (-0.6) - Real.cos 1),
                Draw.line_to (Real.sin (-1) - Real.cos (-1) + 0.001)
                  (Real.sin (-0.6) - Real.cos 1 + 0.001)] ∧
      rd s.max 0 = 0.5 ∧
      Real.sin (-1) - Real.cos (-1) + 0.001 < 0.5 := by
  refine ⟨PeterDeJong.main_succ Real.sin Real.cos 0, ?_⟩
  have hy1 : PeterDeJong.next Real.sin Real.cos 0 (PeterDeJong.y0 : List ℝ)
      = [Real.sin (-1) - Real.cos (-1), Real.sin (-0.6) - Real.cos 1] := PeterDeJong.f_y0
  have hlt : Real.sin (-1) - Real.cos (-1) + 0.001 < (0.5 : ℝ) := by
    rw [Real.sin_neg, Real.cos_neg]
    obtain ⟨hs, -⟩ := sin_one_bounds
    obtain ⟨hc, -⟩ := cos_one_bounds
    norm_num at hs hc ⊢
    linarith
  obtain ⟨mn1, mx1, he, -, -, -, hmax⟩ :=
    updateBounds_min_max 2 [Real.sin (-1) - Real.cos (-1), Real.sin (-0.6) - Real.cos 1]
      (PeterDeJong.y0 : List ℝ) PeterDeJong.y0 rfl rfl rfl (fun _ _ => le_rfl)
  refine ⟨{ y := [Real.sin (-1) - Real.cos (-1), Real.sin (-0.6) - Real.cos 1],
            min := mn1, max := mx1,
            path := [Draw.move_to (Real.sin (-1) - Real.cos (-1)) (Real.sin (-0.6) - Real.cos 1),
                Draw.line_to (Real.sin (-1) - Real.cos (-1) + 0.001)
                  (Real.sin (-0.6) - Real.cos 1 + 0.001)] }, ?_, rfl, ?_, hlt⟩
  · rw [traceLoop, initBounds_full 2 PeterDeJong.y0 rfl]
    simp only [Option.some_bind, forLoopChk, traceStep, hy1, he]
    rw [drawStamp_eq _ _ (by simp),
      copyState_full 2 [Real.sin (-1) - Real.cos (-1), Real.sin (-0.6) - Real.cos 1]
        (PeterDeJong.y0 : List ℝ) rfl rfl]
    simp [rd]
  · show rd mx1 0 = 0.5
    rw [hmax 0 (by decide)]
    have e : rd (PeterDeJong.y0 : List ℝ) 0 = 0.5 := rfl
    rw [e]
    apply max_eq_left
    simp only [rd, List.getD_cons_zero]
    linarith

end StampClaims

/-! ## Monotone widening of the bounding box -/

section WidenClaims

variable {K : Type} [LinearOrderedField K]

/-- A segment-drawing driver over all `N` components has a box after every
iteration, and each is at least as wide as the one before. -/
theorem traceLoop_segment_widens (N : Nat) (next : Nat → List K → List K) (y0 : List K)
    (hN : 2 ≤ N) (hy : y0.length = N)
    (hnext : ∀ i y, y.length = N → (next i y).length = N) (k : Nat) :
    ∃ s s1, traceLoop N N N y0 next drawSegment k = some s ∧
      traceLoop N N N y0 next drawSegment (k + 1) = some s1 ∧
      ∀ j, rd s1.min j ≤ rd s.min j ∧ rd s.max j ≤ rd s1.max j := by
  obtain ⟨s, h0, -⟩ := traceLoop_segment_ref N next y0 hN hy hnext k
  obtain ⟨s1, h1, -⟩ := traceLoop_segment_ref N next y0 hN hy hnext (k + 1)
  exact ⟨s, s1, h0, h1, traceLoop_widens N N N y0 next drawSegment k s s1 h0 h1⟩

theorem stampPath_succ (next : Nat → List K → List K) (y0 : List K) (k : Nat) :
    stampPath next y0 (k + 1) = stampPath next y0 k ++
      [Draw.move_to (rd (stateAt next y0 (k + 1)) 0) (rd (stateAt next y0 (k + 1)) 1),
       Draw.line_to (rd (stateAt next y0 (k + 1)) 0 + 0.001)
         (rd (stateAt next y0 (k + 1)) 1 + 0.001)] := by
  simp [stampPath, List.range_succ, List.flatMap_append]

/-- A stamp-drawing trace loop whose update runs over the `N` components:
after `k` iterations the position is `stateAt k`, the box is the one the
bounding-box code computes from the next states, and the path stamps every
next state. -/
theorem traceLoop_stamp (N : Nat) (next : Nat → List K → List K) (y0 : List K)
    (hN : 2 ≤ N) (hy : y0.length = N)
    (hnext : ∀ i y, y.length = N → (next i y).length = N) (k : Nat) :
    ∃ mn mx, boundsAfter N N y0 (nextStates next y0 k) = some (mn, mx) ∧
      traceLoop N N N y0 next drawStamp k
        = some { y := stateAt next y0 k, min := mn, max := mx,
                 path := stampPath next y0 k } := by
  rw [traceLoop, initBounds_full N y0 hy]
  simp only [Option.some_bind]
  induction k with
  | zero =>
    refine ⟨y0, y0, ?_, rfl⟩
    simp [nextStates, boundsAfter, initBounds_full N y0 hy]
  | succ k ih =>
    obtain ⟨mn, mx, hb, hloop⟩ := ih
    obtain ⟨mn0, mx0, hb0, hl1, hl2, hle, _, _⟩ :=
      boundsAfter_ref N y0 (nextStates next y0 k) hy (nextStates_length N next y0 hy hnext k)
    rw [hb] at hb0
    obtain ⟨rfl, rfl⟩ := Prod.mk.inj (Option.some.inj hb0)
    have hlk := stateAt_length N next y0 hy hnext k
    have hlk1 := stateAt_length N next y0 hy hnext (k + 1)
    obtain ⟨mn1, mx1, he, -, -, -, -⟩ :=
      updateBounds_min_max N (stateAt next y0 (k + 1)) mn mx hlk1 hl1 hl2 hle
    refine ⟨mn1, mx1, ?_, ?_⟩
    · rw [nextStates_succ, boundsAfter_snoc, hb]
      exact he
    · simp only [forLoopChk, hloop, Option.some_bind, traceStep]
      rw [show next k (stateAt next y0 k) = stateAt next y0 (k + 1) from rfl, he]
      simp only [Option.some_bind]
      rw [drawStamp_eq _ _ (by omega), copyState_full N _ _ hlk1 hlk]
      simp only [Option.some_bind]
      rw [stampPath_succ]

/-- C11 at its failing input, the Peter de Jong driver.  Before the first
iteration the box is the initial state.  The update of the first iteration,
written `j < 3` over arrays of `N = 2` entries, fails at `j = 2`, so the run
of one iteration has no box of which to say that it is as wide as the one
before.  With the update held to the `N` components, as the three other
drivers write it, the boxes after `k` and `k + 1` iterations exist for every
`k` and the box only widens. -/
theorem peterdejong_widening_lost (sin cos : K → K) :
    PeterDeJong.main sin cos 0
      = some { y := PeterDeJong.y0, min := PeterDeJong.y0, max := PeterDeJong.y0,
               path := [] } ∧
    updateBounds 3 (PeterDeJong.next sin cos 0 PeterDeJong.y0)
      (PeterDeJong.y0 : List K) PeterDeJong.y0 = none ∧
    PeterDeJong.main sin cos 1 = none ∧
    ∀ k, ∃ s s1,
      traceLoop 2 2 2 (PeterDeJong.y0 : List K) (PeterDeJong.next sin cos) drawStamp k
        = some s ∧
      traceLoop 2 2 2 (PeterDeJong.y0 : List K) (PeterDeJong.next sin cos) drawStamp (k + 1)
        = some s1 ∧
      ∀ j, rd s1.min j ≤ rd s.min j ∧ rd s.max j ≤ rd s1.max j := by
  refine ⟨?_, ?_, PeterDeJong.main_succ sin cos 0, ?_⟩
  · unfold PeterDeJong.main PeterDeJong.N
    rw [traceLoop, initBounds_full 2 PeterDeJong.y0 rfl]
    rfl
  · exact updateBounds_out_of_range 3 _ PeterDeJong.y0 PeterDeJong.y0
      (show (PeterDeJong.y0 : List K).length < 3 from Nat.lt_succ_self 2)
  · intro k
    obtain ⟨mn, mx, -, h0⟩ :=
      traceLoop_stamp 2 (PeterDeJong.next sin cos) PeterDeJong.y0 le_rfl rfl
        (fun _ _ _ => rfl) k
    obtain ⟨mn1, mx1, -, h1⟩ :=
      traceLoop_stamp 2 (PeterDeJong.next sin cos) PeterDeJong.y0 le_rfl rfl
        (fun _ _ _ => rfl) (k + 1)
    exact ⟨_, _, h0, h1, traceLoop_widens 2 2 2 PeterDeJong.y0 (PeterDeJong.next sin cos)
      drawStamp k _ _ h0 h1⟩

end WidenClaims

/-! ## The direction of the monotonicity -/

section DirectionClaims

/-- One `rk4v` step of the Rössler system from its initial condition, exactly. -/
theorem rossler_next_zero :
    (Rossler.next 0 Rossler.y0 : List ℚ)
      = [2940351035115404773 / 30000000000000000000,
         1214294800703 / 12000000000000,
         289493970294093839866968214457 / 3000000000000000000000000000000] := by
  have hlen := (rk4v_rd 3 Rossler.f (((0 : ℕ) : ℚ) * Rossler.h) Rossler.h
    (Rossler.y0 : List ℚ) rfl (fun _ _ _ => rfl)).1
  have hrd := (rk4v_rd 3 Rossler.f (((0 : ℕ) : ℚ) * Rossler.h) Rossler.h
    (Rossler.y0 : List ℚ) rfl (fun _ _ _ => rfl)).2
  apply ext_rd
  · exact hlen
  · intro j hj
    have hj3 : j < 3 := by
      have : (Rossler.next 0 Rossler.y0 : List ℚ).length = 3 := hlen
      omega
    have h3 : j = 0 ∨ j = 1 ∨ j = 2 := by omega
    rcases h3 with h0 | h0 | h0 <;> subst h0
    · rw [show (Rossler.next 0 Rossler.y0 : List ℚ)
          = rk4v 3 Rossler.f (((0 : ℕ) : ℚ) * Rossler.h) Rossler.h Rossler.y0 from rfl,
        hrd 0 (by decide)]
      simp [specK1, specK2, specK3, specK4, vscale, vadd, vhalf, Rossler.f, rd, Rossler.y0,
        Rossler.h, Rossler.a, Rossler.b, Rossler.c]
      norm_num
    · rw [show (Rossler.next 0 Rossler.y0 : List ℚ)
          = rk4v 3 Rossler.f (((0 : ℕ) : ℚ) * Rossler.h) Rossler.h Rossler.y0 from rfl,
        hrd 1 (by decide)]
      simp [specK1, specK2, specK3, specK4, vscale, vadd, vhalf, Rossler.f, rd, Rossler.y0,
        Rossler.h, Rossler.a, Rossler.b, Rossler.c]
      norm_num
    · rw [show (Rossler.next 0 Rossler.y0 : List ℚ)
          = rk4v 3 Rossler.f (((0 : ℕ) : ℚ) * Rossler.h) Rossler.h Rossler.y0 from rfl,
        hrd 2 (by decide)]
      simp [specK1, specK2, specK3, specK4, vscale, vadd, vhalf, Rossler.f, rd, Rossler.y0,
        Rossler.h, Rossler.a, Rossler.b, Rossler.c]
      norm_num

/-- C12, as stated, fails: in the Rössler run over `ℚ`, from the box `min(0)`,
`max(0)` before the first iteration to the box `min(1)`, `max(1)` after it,
`min[0]` strictly falls and `max[1]` strictly rises, so neither
`min(0) <= min(1)` nor `max(0) >= max(1)` holds. -/
theorem rossler_box_direction_reversed :
    ∃ s s1, (Rossler.main 0 : Option (Trace ℚ)) = some s ∧ Rossler.main 1 = some s1 ∧
      ¬ rd s.min 0 ≤ rd s1.min 0 ∧ ¬ rd s.max 1 ≥ rd s1.max 1 := by
  obtain ⟨s, h0, -, -, hs⟩ :=
    traceLoop_segment_ref 3 (Rossler.next : Nat → List ℚ → List ℚ) Rossler.y0 (by decide) rfl
      (fun i y hy => (rk4v_rd 3 Rossler.f _ _ y hy (fun _ _ _ => rfl)).1) 0
  obtain ⟨s1, h1, -, -, hs1⟩ :=
    traceLoop_segment_ref 3 (Rossler.next : Nat → List ℚ → List ℚ) Rossler.y0 (by decide) rfl
      (fun i y hy => (rk4v_rd 3 Rossler.f _ _ y hy (fun _ _ _ => rfl)).1) 1
  have e0 : nextStates Rossler.next (Rossler.y0 : List ℚ) 0 = [] := rfl
  have e1 : nextStates Rossler.next (Rossler.y0 : List ℚ) 1 = [Rossler.next 0 Rossler.y0] := rfl
  refine ⟨s, s1, h0, h1, ?_, ?_⟩
  · rw [(hs 0 (by decide)).1, (hs1 0 (by decide)).1, e0, e1, rossler_next_zero]
    simp only [refMin, List.foldl_nil, List.foldl_cons, rd, Rossler.y0, List.getD_cons_zero]
    norm_num
  · rw [(hs 1 (by decide)).2, (hs1 1 (by decide)).2, e0, e1, rossler_next_zero]
    simp only [refMax, List.foldl_nil, List.foldl_cons, rd, Rossler.y0, List.getD_cons_succ,
      List.getD_cons_zero]
    norm_num

/-- C12, amended: for every run of the Duffing, Lorenz and Rössler drivers and
for all `k`, the boxes `min(k)`, `max(k)` after `k` iterations and `min(k+1)`,
`max(k+1)` after `k + 1` iterations exist, and `min(k) >= min(k+1)`
componentwise and `max(k) <= max(k+1)` componentwise. -/
theorem ode_drivers_box_sequence_widens {K : Type} [LinearOrderedField K] (cos : K → K)
    (k : Nat) :
    (∃ s s1, Duffing.main cos k = some s ∧ Duffing.main cos (k + 1) = some s1 ∧
      ∀ j, rd s.min j ≥ rd s1.min j ∧ rd s.max j ≤ rd s1.max j) ∧
    (∃ s s1, (Lorenz.main k : Option (Trace K)) = some s ∧ Lorenz.main (k + 1) = some s1 ∧
      ∀ j, rd s.min j ≥ rd s1.min j ∧ rd s.max j ≤ rd s1.max j) ∧
    (∃ s s1, (Rossler.main k : Option (Trace K)) = some s ∧ Rossler.main (k + 1) = some s1 ∧
      ∀ j, rd s.min j ≥ rd s1.min j ∧ rd s.max j ≤ rd s1.max j) := by
  refine ⟨?_, ?_, ?_⟩
  · exact traceLoop_segment_widens 2 (Duffing.next cos) Duffing.y0 le_rfl rfl
      (fun i y hy => (rk4v_rd 2 (Duffing.f cos) _ _ y hy (fun _ _ _ => rfl)).1) k
  · exact traceLoop_segment_widens 3 (Lorenz.next : Nat → List K → List K) Lorenz.y0
      (by decide) rfl (fun i y hy => (rk4v_rd 3 Lorenz.f _ _ y hy (fun _ _ _ => rfl)).1) k
  · exact traceLoop_segment_widens 3 (Rossler.next : Nat → List K → List K) Rossler.y0
      (by decide) rfl (fun i y hy => (rk4v_rd 3 Rossler.f _ _ y hy (fun _ _ _ => rfl)).1) k

end DirectionClaims

/-! ## Loop bounds against array lengths -/

section RangeClaims

variable {K : Type} [LinearOrderedField K]

/-- A segment-drawing driver over all `N` components keeps every array at
length `N`. -/
theorem traceLoop_segment_lengths (N : Nat) (next : Nat → List K → List K) (y0 : List K)
    (hN : 2 ≤ N) (hy : y0.length = N)
    (hnext : ∀ i y, y.length = N → (next i y).length = N) (k : Nat) :
    ∃ s, traceLoop N N N y0 next drawSegment k = some s ∧
      s.y.length = N ∧ s.min.length = N ∧ s.max.length = N := by
  obtain ⟨mn, mx, hb, ht⟩ := traceLoop_segment N next y0 hN hy hnext k
  obtain ⟨mn0, mx0, hb0, hl1, hl2, -⟩ :=
    boundsAfter_ref N y0 (nextStates next y0 k) hy (nextStates_length N next y0 hy hnext k)
  rw [hb] at hb0
  obtain ⟨rfl, rfl⟩ := Prod.mk.inj (Option.some.inj hb0)
  exact ⟨_, ht, stateAt_length N next y0 hy hnext k, hl1, hl2⟩

/-- C13: in the Peter de Jong driver the bounding-box update runs `j < 3`
while `N = 2`: for every position `y` and every box `min`, `max` of length
`N`, the lookups of `y_next`, `min` and `max` at index 2 return `none`, the
update fails, and so does every run of at least one iteration. -/
theorem peterdejong_update_reads_out_of_range (sin cos : K → K) (i : Nat) (y : List K) :
    PeterDeJong.N = 2 ∧
    (∀ k, PeterDeJong.main sin cos k
      = traceLoop PeterDeJong.N PeterDeJong.N 3 PeterDeJong.y0 (PeterDeJong.next sin cos)
          drawStamp k) ∧
    (PeterDeJong.next sin cos i y).length = PeterDeJong.N ∧
    (PeterDeJong.next sin cos i y)[2]? = none ∧
    (∀ mn mx : List K, mn.length = PeterDeJong.N → mx.length = PeterDeJong.N →
      mn[2]? = none ∧ mx[2]? = none ∧
      updateBounds 3 (PeterDeJong.next sin cos i y) mn mx = none) ∧
    (∃ mn mx, initBounds PeterDeJong.N PeterDeJong.N (PeterDeJong.y0 : List K) = some (mn, mx) ∧
      mn.length = PeterDeJong.N ∧ mx.length = PeterDeJong.N) ∧
    ∀ k, PeterDeJong.main sin cos (k + 1) = none := by
  refine ⟨rfl, fun _ => rfl, rfl, rfl, ?_, ?_, PeterDeJong.main_succ sin cos⟩
  · intro mn mx hmn hmx
    have h2 : PeterDeJong.N = 2 := rfl
    rw [h2] at hmn hmx
    refine ⟨List.getElem?_eq_none (by omega), List.getElem?_eq_none (by omega), ?_⟩
    exact updateBounds_out_of_range 3 _ mn mx (by omega)
  · exact ⟨PeterDeJong.y0, PeterDeJong.y0, initBounds_full 2 PeterDeJong.y0 rfl, rfl, rfl⟩

/-- C14, as stated, fails: in the Lorenz driver `N = 3`, and after one
iteration over `ℚ` every array has three entries, so the lookups at index 2
of `y`, `y_next`, `min` and `max` all return a value. -/
theorem lorenz_third_component_in_range :
    Lorenz.N = 3 ∧
    (Lorenz.y0 : List ℚ)[2]? ≠ none ∧
    (Lorenz.next 0 Lorenz.y0 : List ℚ)[2]? ≠ none ∧
    ∃ s, (Lorenz.main 1 : Option (Trace ℚ)) = some s ∧
      s.y[2]? ≠ none ∧ s.min[2]? ≠ none ∧ s.max[2]? ≠ none := by
  obtain ⟨s, hs, h1, h2, h3⟩ :=
    traceLoop_segment_lengths 3 (Lorenz.next : Nat → List ℚ → List ℚ) Lorenz.y0 (by decide) rfl
      (fun i y hy => (rk4v_rd 3 Lorenz.f _ _ y hy (fun _ _ _ => rfl)).1) 1
  have hn : (Lorenz.next 0 Lorenz.y0 : List ℚ).length = 3 :=
    (rk4v_rd 3 Lorenz.f _ _ Lorenz.y0 rfl (fun _ _ _ => rfl)).1
  refine ⟨rfl, ?_, ?_, s, hs, ?_, ?_, ?_⟩
  · rw [getElem?_eq_some_rd _ 2 (show 2 < (Lorenz.y0 : List ℚ).length from by decide)]
    exact Option.some_ne_none _
  · rw [getElem?_eq_some_rd _ 2 (by omega)]; exact Option.some_ne_none _
  · rw [getElem?_eq_some_rd _ 2 (by omega)]; exact Option.some_ne_none _
  · rw [getElem?_eq_some_rd _ 2 (by omega)]; exact Option.some_ne_none _
  · rw [getElem?_eq_some_rd _ 2 (by omega)]; exact Option.some_ne_none _

/-- C14, amended: in the Lorenz driver the bounding-box initialisation that
iterates a fixed 3 components runs over arrays of length `N = 3`; every run is
defined, every array keeps three entries, and the lookups at index 2 of `y`,
`y_next`, `min` and `max` return a value. -/
theorem lorenz_fixed_three_in_range (k : Nat) :
    Lorenz.N = 3 ∧
    (Lorenz.main k : Option (Trace K))
      = traceLoop Lorenz.N 3 Lorenz.N Lorenz.y0 Lorenz.next drawSegment k ∧
    ∃ s, (Lorenz.main k : Option (Trace K)) = some s ∧
      s.y.length = 3 ∧ s.min.length = 3 ∧ s.max.length = 3 ∧
      (Lorenz.next k s.y).length = 3 ∧
      s.y[2]? = some (rd s.y 2) ∧
      (Lorenz.next k s.y)[2]? = some (rd (Lorenz.next k s.y) 2) ∧
      s.min[2]? = some (rd s.min 2) ∧ s.max[2]? = some (rd s.max 2) := by
  have hnext : ∀ (i : Nat) (y : List K), y.length = 3 → (Lorenz.next i y).length = 3 :=
    fun i y hy => (rk4v_rd 3 Lorenz.f _ _ y hy (fun _ _ _ => rfl)).1
  obtain ⟨s, hs, h1, h2, h3⟩ :=
    traceLoop_segment_lengths 3 (Lorenz.next : Nat → List K → List K) Lorenz.y0 (by decide) rfl
      hnext k
  have hn := hnext k s.y h1
  exact ⟨rfl, rfl, s, hs, h1, h2, h3, hn,
    getElem?_eq_some_rd _ 2 (by omega), getElem?_eq_some_rd _ 2 (by omega),
    getElem?_eq_some_rd _ 2 (by omega), getElem?_eq_some_rd _ 2 (by omega)⟩

end RangeClaims

/-! ## Autonomous right-hand sides -/

section AutonomyClaims

/-- A step with a right-hand side that ignores the time does not depend on
the time of the step. -/
theorem rk4v_autonomous {K : Type} [Field K] (n : Nat) (f : K → List K → List K)
    (hf : ∀ s s1 z, f s z = f s1 z) (t1 t2 h : K) (y : List K) :
    rk4v n f t1 h y = rk4v n f t2 h y := by
  have e : f = fun _ z => f 0 z := by
    funext s z
    exact hf s 0 z
  rw [e]
  rfl

/-- C15: the Lorenz and Rössler right-hand sides do not depend on `t`, hence
neither does an `rk4v` step with them, and the trajectory of either driver is
the same whatever times are passed in place of `i*h`. -/
theorem lorenz_rossler_autonomous {K : Type} [LinearOrderedField K] :
    (∀ (t1 t2 : K) (y : List K), Lorenz.f t1 y = Lorenz.f t2 y) ∧
    (∀ (t1 t2 : K) (y : List K), Rossler.f t1 y = Rossler.f t2 y) ∧
    (∀ (t1 t2 h : K) (y : List K), rk4v 3 Lorenz.f t1 h y = rk4v 3 Lorenz.f t2 h y) ∧
    (∀ (t1 t2 h : K) (y : List K), rk4v 3 Rossler.f t1 h y = rk4v 3 Rossler.f t2 h y) ∧
    (∀ (time : Nat → K) (k : Nat),
      stateAt (fun i y => rk4v Lorenz.N Lorenz.f (time i) Lorenz.h y) Lorenz.y0 k
        = stateAt Lorenz.next (Lorenz.y0 : List K) k) ∧
    (∀ (time : Nat → K) (k : Nat),
      stateAt (fun i y => rk4v Rossler.N Rossler.f (time i) Rossler.h y) Rossler.y0 k
        = stateAt Rossler.next (Rossler.y0 : List K) k) := by
  refine ⟨fun _ _ _ => rfl, fun _ _ _ => rfl,
    fun t1 t2 h y => rk4v_autonomous 3 Lorenz.f (fun _ _ _ => rfl) t1 t2 h y,
    fun t1 t2 h y => rk4v_autonomous 3 Rossler.f (fun _ _ _ => rfl) t1 t2 h y, ?_, ?_⟩
  · intro time k
    induction k with
    | zero => rfl
    | succ k ih =>
      rw [stateAt, stateAt, ih]
      exact rk4v_autonomous Lorenz.N Lorenz.f (fun _ _ _ => rfl) _ _ _ _
  · intro time k
    induction k with
    | zero => rfl
    | succ k ih =>
      rw [stateAt, stateAt, ih]
      exact rk4v_autonomous Rossler.N Rossler.f (fun _ _ _ => rfl) _ _ _ _

end AutonomyClaims

/-! ## The viewport on the canvas -/

section ViewportClaims

theorem duffing_ctm_corners :
    user_to_device (Duffing.ctm : Ctm ℝ) Duffing.kXLeft Duffing.kYTop = (0, 0) ∧
    user_to_device (Duffing.ctm : Ctm ℝ) Duffing.kXRight Duffing.kYBottom
      = (Duffing.kWidth, Duffing.kHeight) ∧
    (Duffing.ctm : Ctm ℝ).yy = Duffing.kHeight / (Duffing.kYBottom - Duffing.kYTop) ∧
    (Duffing.ctm : Ctm ℝ).yy < 0 := by
  refine ⟨?_, ?_, ?_, ?_⟩
  · rw [Duffing.ctm, user_to_device_viewportCtm]
    simp only [Duffing.kWidth, Duffing.kHeight, Duffing.kXLeft, Duffing.kXRight,
      Duffing.kYBottom, Duffing.kYTop, Prod.mk.injEq]
    constructor <;> norm_num
  · rw [Duffing.ctm, user_to_device_viewportCtm]
    simp only [Duffing.kWidth, Duffing.kHeight, Duffing.kXLeft, Duffing.kXRight,
      Duffing.kYBottom, Duffing.kYTop, Prod.mk.injEq]
    constructor <;> norm_num
  · simp only [Duffing.ctm, viewportCtm, cairo_translate, cairo_scale, Ctm.identity, one_mul]
  · simp only [Duffing.ctm, viewportCtm, cairo_translate, cairo_scale, Ctm.identity, one_mul,
      Duffing.kHeight, Duffing.kYBottom, Duffing.kYTop]
    norm_num

theorem lorenz_ctm_corners :
    user_to_device (Lorenz.ctm : Ctm ℝ) Lorenz.kXLeft Lorenz.kYTop = (0, 0) ∧
    user_to_device (Lorenz.ctm : Ctm ℝ) Lorenz.kXRight Lorenz.kYBottom
      = (Lorenz.kWidth, Lorenz.kHeight) ∧
    (Lorenz.ctm : Ctm ℝ).yy = Lorenz.kHeight / (Lorenz.kYBottom - Lorenz.kYTop) ∧
    (Lorenz.ctm : Ctm ℝ).yy < 0 := by
  refine ⟨?_, ?_, ?_, ?_⟩
  · rw [Lorenz.ctm, user_to_device_viewportCtm]
    simp only [Lorenz.kWidth, Lorenz.kHeight, Lorenz.kXLeft, Lorenz.kXRight,
      Lorenz.kYBottom, Lorenz.kYTop, Prod.mk.injEq]
    constructor <;> norm_num
  · rw [Lorenz.ctm, user_to_device_viewportCtm]
    simp only [Lorenz.kWidth, Lorenz.kHeight, Lorenz.kXLeft, Lorenz.kXRight,
      Lorenz.kYBottom, Lorenz.kYTop, Prod.mk.injEq]
    constructor <;> norm_num
  · simp only [Lorenz.ctm, viewportCtm, cairo_translate, cairo_scale, Ctm.identity, one_mul]
  · simp only [Lorenz.ctm, viewportCtm, cairo_translate, cairo_scale, Ctm.identity, one_mul,
      Lorenz.kHeight, Lorenz.kYBottom, Lorenz.kYTop]
    norm_num

theorem rossler_ctm_corners :
    user_to_device (Rossler.ctm : Ctm ℝ) Rossler.kXLeft Rossler.kYTop = (0, 0) ∧
    user_to_device (Rossler.ctm : Ctm ℝ) Rossler.kXRight Rossler.kYBottom
      = (Rossler.kWidth, Rossler.kHeight) ∧
    (Rossler.ctm : Ctm ℝ).yy = Rossler.kHeight / (Rossler.kYBottom - Rossler.kYTop) ∧
    (Rossler.ctm : Ctm ℝ).yy < 0 := by
  refine ⟨?_, ?_, ?_, ?_⟩
  · rw [Rossler.ctm, user_to_device_viewportCtm]
    simp only [Rossler.kWidth, Rossler.kHeight, Rossler.kXLeft, Rossler.kXRight,
      Rossler.kYBottom, Rossler.kYTop, Rossler.kTranslateX, Rossler.kTranslateY, Prod.mk.injEq]
    constructor <;> norm_num
  · rw [Rossler.ctm, user_to_device_viewportCtm]
    simp only [Rossler.kWidth, Rossler.kHeight, Rossler.kXLeft, Rossler.kXRight,
      Rossler.kYBottom, Rossler.kYTop, Rossler.kTranslateX, Rossler.kTranslateY, Prod.mk.injEq]
    constructor <;> norm_num
  · simp only [Rossler.ctm, viewportCtm, cairo_translate, cairo_scale, Ctm.identity, one_mul]
  · simp only [Rossler.ctm, viewportCtm, cairo_translate, cairo_scale, Ctm.identity, one_mul,
      Rossler.kHeight, Rossler.kYBottom, Rossler.kYTop]
    norm_num

theorem peterdejong_ctm_corners :
    user_to_device (PeterDeJong.ctm : Ctm ℝ) PeterDeJong.kXLeft PeterDeJong.kYTop = (0, 0) ∧
    user_to_device (PeterDeJong.ctm : Ctm ℝ) PeterDeJong.kXRight PeterDeJong.kYBottom
      = (PeterDeJong.kWidth, PeterDeJong.kHeight) ∧
    (PeterDeJong.ctm : Ctm ℝ).yy
      = PeterDeJong.kHeight / (PeterDeJong.kYBottom - PeterDeJong.kYTop) ∧
    (PeterDeJong.ctm : Ctm ℝ).yy < 0 := by
  refine ⟨?_, ?_, ?_, ?_⟩
  · rw [PeterDeJong.ctm, user_to_device_viewportCtm]
    simp only [PeterDeJong.kWidth, PeterDeJong.kHeight, PeterDeJong.kXLeft,
      PeterDeJong.kXRight, PeterDeJong.kYBottom, PeterDeJong.kYTop, Prod.mk.injEq]
    constructor <;> norm_num
  · rw [PeterDeJong.ctm, user_to_device_viewportCtm]
    simp only [PeterDeJong.kWidth, PeterDeJong.kHeight, PeterDeJong.kXLeft,
      PeterDeJong.kXRight, PeterDeJong.kYBottom, PeterDeJong.kYTop, Prod.mk.injEq]
    constructor <;> norm_num
  · simp only [PeterDeJong.ctm, viewportCtm, cairo_translate, cairo_scale, Ctm.identity, one_mul]
  · simp only [PeterDeJong.ctm, viewportCtm, cairo_translate, cairo_scale, Ctm.identity,
      one_mul, PeterDeJong.kHeight, PeterDeJong.kYBottom, PeterDeJong.kYTop]
    norm_num

/-- C16: for each of the four drivers, with scale then translate composed as
Cairo composes them, the world point `(kXLeft, kYTop)` maps to device `(0, 0)`
and the world point `(kXRight, kYBottom)` maps to device `(kWidth, kHeight)`,
and the vertical scale `kHeight / (kYBottom - kYTop)` is negative (the `y`
axis is flipped). -/
theorem viewport_maps_onto_canvas :
    (∀ x y : ℝ, user_to_device (Duffing.ctm : Ctm ℝ) x y
        = ((x + Duffing.kXRight) * (Duffing.kWidth / (Duffing.kXRight - Duffing.kXLeft)),
           (y + Duffing.kYBottom) * (Duffing.kHeight / (Duffing.kYBottom - Duffing.kYTop)))) ∧
    (user_to_device (Duffing.ctm : Ctm ℝ) Duffing.kXLeft Duffing.kYTop = (0, 0) ∧
      user_to_device (Duffing.ctm : Ctm ℝ) Duffing.kXRight Duffing.kYBottom
        = (Duffing.kWidth, Duffing.kHeight) ∧
      (Duffing.ctm : Ctm ℝ).yy = Duffing.kHeight / (Duffing.kYBottom - Duffing.kYTop) ∧
      (Duffing.ctm : Ctm ℝ).yy < 0) ∧
    (user_to_device (Lorenz.ctm : Ctm ℝ) Lorenz.kXLeft Lorenz.kYTop = (0, 0) ∧
      user_to_device (Lorenz.ctm : Ctm ℝ) Lorenz.kXRight Lorenz.kYBottom
        = (Lorenz.kWidth, Lorenz.kHeight) ∧
      (Lorenz.ctm : Ctm ℝ).yy = Lorenz.kHeight / (Lorenz.kYBottom - Lorenz.kYTop) ∧
      (Lorenz.ctm : Ctm ℝ).yy < 0) ∧
    (user_to_device (Rossler.ctm : Ctm ℝ) Rossler.kXLeft Rossler.kYTop = (0, 0) ∧
      user_to_device (Rossler.ctm : Ctm ℝ) Rossler.kXRight Rossler.kYBottom
        = (Rossler.kWidth, Rossler.kHeight) ∧
      (Rossler.ctm : Ctm ℝ).yy = Rossler.kHeight / (Rossler.kYBottom - Rossler.kYTop) ∧
      (Rossler.ctm : Ctm ℝ).yy < 0) ∧
    (user_to_device (PeterDeJong.ctm : Ctm ℝ) PeterDeJong.kXLeft PeterDeJong.kYTop = (0, 0) ∧
      user_to_device (PeterDeJong.ctm : Ctm ℝ) PeterDeJong.kXRight PeterDeJong.kYBottom
        = (PeterDeJong.kWidth, PeterDeJong.kHeight) ∧
      (PeterDeJong.ctm : Ctm ℝ).yy
        = PeterDeJong.kHeight / (PeterDeJong.kYBottom - PeterDeJong.kYTop) ∧
      (PeterDeJong.ctm : Ctm ℝ).yy < 0) :=
  ⟨fun x y => user_to_device_viewportCtm _ _ _ _ _ _ _ _ x y,
    duffing_ctm_corners, lorenz_ctm_corners, rossler_ctm_corners, peterdejong_ctm_corners⟩

end ViewportClaims

/-! ## The Peter de Jong map stays inside the viewport -/

section MapRangeClaims

/-- Both components of the Peter de Jong map lie in `[-2, 2]`. -/
theorem PeterDeJong.f_range (y : List ℝ) :
    (-2 ≤ rd (PeterDeJong.f Real.sin Real.cos y) 0 ∧
      rd (PeterDeJong.f Real.sin Real.cos y) 0 ≤ 2) ∧
    (-2 ≤ rd (PeterDeJong.f Real.sin Real.cos y) 1 ∧
      rd (PeterDeJong.f Real.sin Real.cos y) 1 ≤ 2) := by
  simp only [PeterDeJong.f, rd, List.getD_cons_succ, List.getD_cons_zero]
  have s1 := Real.neg_one_le_sin (PeterDeJong.a * List.getD y 1 0)
  have s2 := Real.sin_le_one (PeterDeJong.a * List.getD y 1 0)
  have c1 := Real.neg_one_le_cos (PeterDeJong.b * List.getD y 0 0)
  have c2 := Real.cos_le_one (PeterDeJong.b * List.getD y 0 0)
  have s3 := Real.neg_one_le_sin (PeterDeJong.c * List.getD y 0 0)
  have s4 := Real.sin_le_one (PeterDeJong.c * List.getD y 0 0)
  have c3 := Real.neg_one_le_cos (PeterDeJong.d * List.getD y 1 0)
  have c4 := Real.cos_le_one (PeterDeJong.d * List.getD y 1 0)
  refine ⟨⟨?_, ?_⟩, ⟨?_, ?_⟩⟩ <;> linarith

/-- The map alone, apart from the driver: both components lie in `[-2, 2]`,
so every iterate of the map from the initial condition, and both points of
the stamp drawn for a next state, lie strictly inside the viewport
`[-2.1, 2.1] x [-2.1, 2.1]`. -/
theorem peterdejong_iterates_inside_viewport :
    (∀ y : List ℝ,
      (-2 ≤ rd (PeterDeJong.f Real.sin Real.cos y) 0 ∧
        rd (PeterDeJong.f Real.sin Real.cos y) 0 ≤ 2) ∧
      (-2 ≤ rd (PeterDeJong.f Real.sin Real.cos y) 1 ∧
        rd (PeterDeJong.f Real.sin Real.cos y) 1 ≤ 2)) ∧
    ((PeterDeJong.kXLeft : ℝ) = -2.1 ∧ (PeterDeJong.kXRight : ℝ) = 2.1 ∧
      (PeterDeJong.kYBottom : ℝ) = -2.1 ∧ (PeterDeJong.kYTop : ℝ) = 2.1) ∧
    (∀ k : Nat,
      PeterDeJong.kXLeft
          < rd (stateAt (PeterDeJong.next Real.sin Real.cos) PeterDeJong.y0 (k + 1)) 0 ∧
      rd (stateAt (PeterDeJong.next Real.sin Real.cos) PeterDeJong.y0 (k + 1)) 0
          < PeterDeJong.kXRight ∧
      PeterDeJong.kYBottom
          < rd (stateAt (PeterDeJong.next Real.sin Real.cos) PeterDeJong.y0 (k + 1)) 1 ∧
      rd (stateAt (PeterDeJong.next Real.sin Real.cos) PeterDeJong.y0 (k + 1)) 1
          < PeterDeJong.kYTop) ∧
    (∀ (i : Nat) (y : List ℝ), ∃ px py : ℝ,
      drawStamp y (PeterDeJong.next Real.sin Real.cos i y)
        = some [Draw.move_to px py, Draw.line_to (px + 0.001) (py + 0.001)] ∧
      px = rd (PeterDeJong.next Real.sin Real.cos i y) 0 ∧
      py = rd (PeterDeJong.next Real.sin Real.cos i y) 1 ∧
      PeterDeJong.kXLeft < px ∧ px + 0.001 < PeterDeJong.kXRight ∧
      PeterDeJong.kYBottom < py ∧ py + 0.001 < PeterDeJong.kYTop) := by
  have hl : (PeterDeJong.kXLeft : ℝ) = -2.1 := rfl
  have hr : (PeterDeJong.kXRight : ℝ) = 2.1 := rfl
  have hb : (PeterDeJong.kYBottom : ℝ) = -2.1 := rfl
  have ht : (PeterDeJong.kYTop : ℝ) = 2.1 := rfl
  refine ⟨PeterDeJong.f_range, ⟨hl, hr, hb, ht⟩, ?_, ?_⟩
  · intro k
    obtain ⟨⟨a1, a2⟩, ⟨b1, b2⟩⟩ :=
      PeterDeJong.f_range (stateAt (PeterDeJong.next Real.sin Real.cos) PeterDeJong.y0 k)
    rw [hl, hr, hb, ht]
    rw [show stateAt (PeterDeJong.next Real.sin Real.cos) (PeterDeJong.y0 : List ℝ) (k + 1)
        = PeterDeJong.f Real.sin Real.cos
            (stateAt (PeterDeJong.next Real.sin Real.cos) PeterDeJong.y0 k) from rfl]
    refine ⟨?_, ?_, ?_, ?_⟩ <;> norm_num <;> linarith
  · intro i y
    obtain ⟨⟨a1, a2⟩, ⟨b1, b2⟩⟩ := PeterDeJong.f_range y
    refine ⟨rd (PeterDeJong.next Real.sin Real.cos i y) 0,
      rd (PeterDeJong.next Real.sin Real.cos i y) 1, ?_, rfl, rfl, ?_⟩
    · exact drawStamp_eq y _ (show 2 ≤ (PeterDeJong.next Real.sin Real.cos i y).length from
        le_rfl)
    · rw [hl, hr, hb, ht]
      rw [show PeterDeJong.next Real.sin Real.cos i y = PeterDeJong.f Real.sin Real.cos y
        from rfl]
      refine ⟨?_, ?_, ?_, ?_⟩ <;> norm_num <;> linarith

end MapRangeClaims

/-! ## Equilibria -/

section EquilibriumClaims

variable {K : Type} [Field K]

theorem rd_replicate_zero (n j : Nat) : rd (List.replicate n (0 : K)) j = 0 := by
  simp only [rd, List.getD_eq_getElem?_getD, List.getElem?_replicate]
  split <;> simp

theorem vscale_zero (h : K) (n : Nat) :
    (List.replicate n (0 : K)).map (fun d => h * d) = List.replicate n 0 := by
  simp

/-- Combining an array with the zero vector by an operation that leaves its
first argument alone at `0` gives the array back. -/
theorem zipWith_zero_right (g : K → K → K) (hg : ∀ a, g a 0 = a) (y : List K) (n : Nat)
    (hy : y.length = n) : List.zipWith g y (List.replicate n 0) = y := by
  apply ext_rd
  · simp [hy]
  · intro j hj
    have hj2 : j < n := by
      rw [length_zipWith_same g y (List.replicate n 0) n hy (by simp)] at hj
      exact hj
    rw [rd_zipWith g y _ j (hy.symm ▸ hj2) (by simpa using hj2), rd_replicate_zero, hg]

theorem zipWith_zero_zero (g : K → K → K) (hg : g 0 0 = 0) (n : Nat) :
    List.zipWith g (List.replicate n (0 : K)) (List.replicate n 0) = List.replicate n 0 := by
  apply ext_rd
  · simp
  · intro j hj
    have hj2 : j < n := by simpa using hj
    rw [rd_zipWith g _ _ j (by simpa using hj2) (by simpa using hj2), rd_replicate_zero, hg]

/-- A step from a state at which the right-hand side vanishes at every time
returns that state. -/
theorem rk4v_equilibrium (n : Nat) (f : K → List K → List K) (t h : K) (y : List K)
    (hy : y.length = n) (heq : ∀ s, f s y = List.replicate n 0) :
    rk4v n f t h y = y := by
  have hz : (List.replicate n (0 : K)).length = n := by simp
  have hfresh : (fresh n : List K) = List.replicate n 0 := rfl
  unfold rk4v
  simp only []
  rw [heq t, hfresh]
  -- k1
  have e1 := forLoop_scale (fun _ b => b) h (List.replicate n (0 : K)) (List.replicate n 0) n
    hz hz
  simp only [] at e1
  rw [e1]
  simp only []
  rw [vscale_zero, zipWith_zero_zero (fun _ d => h * d) (by simp) n]
  -- temp = y + k1/2
  have t1 := forLoop_temp (fun a b => a + b / 2) y (List.replicate n (0 : K))
    (List.replicate n 0) n hy hz hz
  simp only [] at t1
  rw [t1, zipWith_zero_right (fun a b => a + b / 2) (fun a => by simp) y n hy, heq (t + h / 2)]
  -- k2
  have e2 := forLoop_scale (fun a b => a + b * 2) h (List.replicate n (0 : K))
    (List.replicate n 0) n hz hz
  simp only [] at e2
  rw [e2]
  simp only []
  rw [vscale_zero, zipWith_zero_zero (fun a d => a + h * d * 2) (by simp) n]
  -- temp = y + k2/2
  have t2 := forLoop_temp (fun a b => a + b / 2) y (List.replicate n (0 : K)) y n hy hz hy
  simp only [] at t2
  rw [t2, zipWith_zero_right (fun a b => a + b / 2) (fun a => by simp) y n hy, heq (t + h / 2)]
  -- k3
  rw [e2]
  simp only []
  rw [vscale_zero, zipWith_zero_zero (fun a d => a + h * d * 2) (by simp) n]
  -- temp = y + k3
  have t3 := forLoop_temp (fun a b => a + b) y (List.replicate n (0 : K)) y n hy hz hy
  simp only [] at t3
  rw [t3, zipWith_zero_right (fun a b => a + b) (fun a => by simp) y n hy, heq (t + h)]
  -- k4
  have e4 := forLoop_scale (fun a b => a + b) h (List.replicate n (0 : K))
    (List.replicate n 0) n hz hz
  simp only [] at e4
  rw [e4]
  simp only []
  rw [zipWith_zero_zero (fun a d => a + h * d) (by simp) n]
  -- y_next = y + y_next / 6
  obtain ⟨hl, hr⟩ := forLoop_single (fun i v => rd y i + v / 6) (List.replicate n (0 : K)) n
    (le_of_eq hz.symm)
  apply ext_rd
  · rw [hl, hz, hy]
  · intro j hj
    rw [hl, hz] at hj
    rw [hr j, if_pos hj, rd_replicate_zero]
    simp

end EquilibriumClaims

/-! ## Equilibria and the linear test equation -/

section LinearClaims

theorem Lorenz.f_origin {K : Type} [Field K] (s : K) :
    Lorenz.f s ([0, 0, 0] : List K) = List.replicate 3 0 := by
  simp [Lorenz.f, rd, List.replicate]

/-- C18: for every `n`, every right-hand side `f` and every state `y` of
length `n` at which `f(s, y)` is the zero vector for every time `s`,
`rk4v(n, f, t, h, y) = y` for every `t` and `h`; in particular one step of the
Lorenz system from `(0, 0, 0)` returns `(0, 0, 0)`. -/
theorem rk4v_preserves_equilibria {K : Type} [Field K] (n : Nat)
    (f : K → List K → List K) (t h : K) (y : List K)
    (hy : y.length = n) (heq : ∀ s, f s y = List.replicate n 0) :
    rk4v n f t h y = y ∧
    ∀ t1 h1 : K, rk4v 3 Lorenz.f t1 h1 [0, 0, 0] = [0, 0, 0] :=
  ⟨rk4v_equilibrium n f t h y hy heq,
    fun t1 h1 => rk4v_equilibrium 3 Lorenz.f t1 h1 [0, 0, 0] rfl Lorenz.f_origin⟩

/-- C18 at the origin of the Lorenz system over `ℚ`, with the driver's step
size. -/
theorem rk4v_preserves_equilibria_witness :
    ([0, 0, 0] : List ℚ).length = 3 ∧
    (∀ s : ℚ, Lorenz.f s [0, 0, 0] = List.replicate 3 0) ∧
    (rk4v 3 Lorenz.f 0 (1 / 50) ([0, 0, 0] : List ℚ) = [0, 0, 0] ∧
      ∀ t1 h1 : ℚ, rk4v 3 Lorenz.f t1 h1 [0, 0, 0] = [0, 0, 0]) :=
  ⟨rfl, Lorenz.f_origin,
    rk4v_preserves_equilibria 3 Lorenz.f 0 (1 / 50) [0, 0, 0] rfl Lorenz.f_origin⟩

/-- One `rk4v` step of `y' = lambda*y`. -/
theorem rk4v_linear (lam t h y : ℝ) :
    rk4v 1 (linear lam) t h [y]
      = [y * (1 + h * lam + (h * lam) ^ 2 / 2 + (h * lam) ^ 3 / 6 + (h * lam) ^ 4 / 24)] := by
  obtain ⟨hlen, hrd⟩ := rk4v_rd 1 (linear lam) t h [y] rfl (fun _ _ _ => rfl)
  apply ext_rd
  · rw [hlen]; rfl
  · intro j hj
    rw [hlen] at hj
    have h0 : j = 0 := by omega
    subst h0
    rw [hrd 0 (by decide)]
    simp only [specK1, specK2, specK3, specK4, vscale, vadd, vhalf, linear, rd,
      List.getD_cons_zero, List.map_cons, List.map_nil, List.zipWith_cons_cons,
      List.zipWith_nil_right]
    ring

/-- C19: for the scalar linear right-hand side `rhs(t, y) = lambda*y` (`n = 1`)
and every real `lambda`, `h`, `t` and `y`, one RK4 step, by `rk4v` and by `rk4`,
returns `y * (1 + z + z^2/2 + z^3/6 + z^4/24)` with `z = h*lambda`. -/
theorem rk4_linear_step_is_taylor (lam t h y : ℝ) :
    rk4v 1 (linear lam) t h [y]
      = [y * (1 + h * lam + (h * lam) ^ 2 / 2 + (h * lam) ^ 3 / 6 + (h * lam) ^ 4 / 24)] ∧
    rk4 1 (linearFns lam) t h [y]
      = [y * (1 + h * lam + (h * lam) ^ 2 / 2 + (h * lam) ^ 3 / 6 + (h * lam) ^ 4 / 24)] := by
  refine ⟨rk4v_linear lam t h y, ?_⟩
  rw [rk4_eq_rk4v_vectorOf 1 (linearFns lam) t h [y] rfl rfl,
    show vectorOf (linearFns lam : List (ℝ → List ℝ → ℝ)) = linear lam from rfl, rk4v_linear]

end LinearClaims

end StrangeAttractors
